import Mathlib

/-!
Shallow embedding of the `resolv_mir` note-sequence transformation engine
(quantizer, subsequence extractor, melody extractor, sustain resolver,
truncator) together with theorems settling the specification claims.

Python floats are modelled as rationals (`ℚ`), machine integers as `ℤ`,
and fallible Python code (raised exceptions) as `Except PyError`.
Each definition follows the corresponding function of
`src/resolv_mir/note_sequence/` statement by statement.
-/

attribute [local semireducible] Rat.add Rat.sub Rat.mul Rat.inv

namespace ResolvMir

/-- Insert `x` into a sorted list, after every element `y` with `le y x`:
the insertion step of a stable insertion sort. -/
def insertSorted {α : Type} (le : α → α → Bool) (x : α) : List α → List α
  | [] => [x]
  | y :: ys => if le y x then y :: insertSorted le x ys else x :: y :: ys

/-- A stable sort (insertion sort). For a total preorder `le` this is
extensionally equal to Python's stable `sorted` / `list.sort`, which is
what the embedded code uses. -/
def stableSort {α : Type} (le : α → α → Bool) (l : List α) : List α :=
  l.foldl (fun acc x => insertSorted le x acc) []

/-- `constants.FLOAT_RELATIVE_TOLERANCE = 1e-09`. -/
def FLOAT_RELATIVE_TOLERANCE : ℚ := 1 / 1000000000

/-- `constants.QUANTIZE_CUTOFF = 0.75`. -/
def QUANTIZE_CUTOFF : ℚ := 3 / 4

/-- `constants.DEFAULT_QUARTERS_PER_MINUTE = 120`. -/
def DEFAULT_QUARTERS_PER_MINUTE : ℚ := 120

/-- `constants.DEFAULT_SUBSEQUENCE_PRESERVE_CONTROL_NUMBERS = (64, 66, 67)`. -/
def DEFAULT_SUBSEQUENCE_PRESERVE_CONTROL_NUMBERS : List ℤ := [64, 66, 67]

/-- `constants.PIANO_MIN_MIDI_PITCH = 21`. -/
def PIANO_MIN_MIDI_PITCH : ℤ := 21

/-- `constants.PIANO_MAX_MIDI_PITCH = 108`. -/
def PIANO_MAX_MIDI_PITCH : ℤ := 108

/-- Half-open integer range `[lo, hi)`, as Python's `range(lo, hi)`. -/
def intRange (lo hi : ℤ) : List ℤ :=
  (List.range (hi - lo).toNat).map (fun i => lo + (i : ℤ))

/-- `constants.MEL_PROGRAMS`: piano, chromatic percussion, organ, guitar,
string, reed, pipe, synth-lead and ethnic program ranges. -/
def MEL_PROGRAMS : List ℤ :=
  intRange 0 8 ++ intRange 8 16 ++ intRange 16 24 ++ intRange 24 32 ++
  intRange 40 56 ++ intRange 64 72 ++ intRange 72 80 ++ intRange 80 88 ++
  intRange 104 112

/-- `utilities.float_equal`: `math.isclose` with relative tolerance `1e-9`
and absolute tolerance `0`, i.e. `|a - b| <= 1e-9 * max(|a|, |b|)`. -/
def float_equal (a b : ℚ) : Bool :=
  decide (|a - b| ≤ FLOAT_RELATIVE_TOLERANCE * max |a| |b|)

/-- `utilities.float_less`: `not float_equal(a, b) and a < b`. -/
def float_less (a b : ℚ) : Bool :=
  !float_equal a b && decide (a < b)

/-- `utilities.float_great`: `not float_equal(a, b) and a > b`. -/
def float_great (a b : ℚ) : Bool :=
  !float_equal a b && decide (a > b)

/-- `utilities.float_less_or_equal`: `float_equal(a, b) or a < b`. -/
def float_less_or_equal (a b : ℚ) : Bool :=
  float_equal a b || decide (a < b)

/-- Python's `int(x)` on a float: truncation toward zero. -/
def pyInt (q : ℚ) : ℤ :=
  if 0 ≤ q then ⌊q⌋ else ⌈q⌉

/-- Python's `a % b` on ints: remainder with the sign of the divisor
(floor-division remainder). -/
def pyMod (a b : ℤ) : ℤ :=
  a - b * Int.fdiv a b

/-! ## Data model

Modelled from the spec: the `NoteSequence` protobuf message
(`protobuf/protos/symbolic_music_pb2`, generated code not present under
`src/`) per §3 of the spec and the attribute accesses in the processors.
Opaque identity/metadata fields (id, source info, instrument infos) that no
processor under proof reads are omitted. -/

/-- A note of a `NoteSequence` (spec §3, `NoteSequence.Note`). -/
structure Note where
  pitch : ℤ
  velocity : ℤ
  instrument : ℤ
  program : ℤ
  is_drum : Bool
  start_time : ℚ
  end_time : ℚ
  quantized_start_step : ℤ
  quantized_end_step : ℤ
deriving DecidableEq, Repr, Inhabited

/-- A control change event (spec §3, `NoteSequence.ControlChange`). -/
structure ControlChange where
  time : ℚ
  control_number : ℤ
  control_value : ℤ
  instrument : ℤ
  program : ℤ
  is_drum : Bool
  quantized_step : ℤ
deriving DecidableEq, Repr, Inhabited

/-- A pitch bend event (spec §3, `NoteSequence.PitchBend`). -/
structure PitchBend where
  time : ℚ
  bend : ℤ
  instrument : ℤ
  program : ℤ
  is_drum : Bool
deriving DecidableEq, Repr, Inhabited

/-- The type tag of a text annotation (spec §3): chord symbols are
stateful, beat markers are stateless. -/
inductive AnnotType where
  | unknown
  | chordSymbol
  | beat
deriving DecidableEq, Repr, Inhabited

/-- A text annotation (spec §3, `NoteSequence.TextAnnotation`). -/
structure TextAnnot where
  time : ℚ
  text : String
  annot_type : AnnotType
  quantized_step : ℤ
deriving DecidableEq, Repr, Inhabited

/-- A time signature change (spec §3). -/
structure TimeSignature where
  time : ℚ
  numerator : ℤ
  denominator : ℤ
deriving DecidableEq, Repr, Inhabited

/-- A key signature change (spec §3). -/
structure KeySignature where
  time : ℚ
  key : ℤ
deriving DecidableEq, Repr, Inhabited

/-- A tempo change (spec §3). -/
structure Tempo where
  time : ℚ
  qpm : ℚ
deriving DecidableEq, Repr, Inhabited

/-- `NoteSequence.quantization_info`: `steps_per_quarter` XOR
`steps_per_second`, zero meaning unquantized (spec §3). -/
structure QuantizationInfo where
  steps_per_quarter : ℤ
  steps_per_second : ℚ
deriving DecidableEq, Repr, Inhabited

/-- `NoteSequence.subsequence_info` (spec §4.2 step 7). -/
structure SubsequenceInfo where
  start_time_offset : ℚ
  end_time_offset : ℚ
deriving DecidableEq, Repr, Inhabited

/-- The canonical record (spec §3, `NoteSequence`). -/
structure NoteSequence where
  ticks_per_quarter : ℤ
  total_time : ℚ
  total_quantized_steps : ℤ
  quantization_info : QuantizationInfo
  subsequence_info : SubsequenceInfo
  notes : List Note
  control_changes : List ControlChange
  pitch_bends : List PitchBend
  text_annots : List TextAnnot
  time_signatures : List TimeSignature
  key_signatures : List KeySignature
  tempos : List Tempo
deriving DecidableEq, Repr, Inhabited

/-- The Python exceptions the embedded processors can raise
(`exceptions.py` plus builtin `ValueError` / `TypeError` /
`ZeroDivisionError` / `IndexError`). -/
inductive PyError where
  | quantizationStatus
  | multipleTimeSignature
  | multipleTempo
  | badTimeSignature
  | negativeTime
  | nonIntegerStepsPerBar
  | polyphonicMelody
  | valueError
  | typeError
  | zeroDivision
  | indexError
deriving DecidableEq, Repr

instance {ε α : Type} [DecidableEq ε] [DecidableEq α] : DecidableEq (Except ε α) :=
  fun x y =>
    match x, y with
    | .ok a, .ok b =>
      if h : a = b then .isTrue (by rw [h]) else .isFalse (by simpa using h)
    | .error a, .error b =>
      if h : a = b then .isTrue (by rw [h]) else .isFalse (by simpa using h)
    | .ok _, .error _ => .isFalse (by simp)
    | .error _, .ok _ => .isFalse (by simp)

/-- `utilities.is_quantized_sequence`. -/
def is_quantized_sequence (ns : NoteSequence) : Bool :=
  decide (ns.quantization_info.steps_per_quarter > 0) ||
  decide (ns.quantization_info.steps_per_second > 0)

/-- `utilities.is_relative_quantized_sequence`. -/
def is_relative_quantized_sequence (ns : NoteSequence) : Bool :=
  decide (ns.quantization_info.steps_per_quarter > 0)

/-- `utilities.is_absolute_quantized_sequence`. -/
def is_absolute_quantized_sequence (ns : NoteSequence) : Bool :=
  decide (ns.quantization_info.steps_per_second > 0)

/-- `utilities.steps_per_quarter_to_steps_per_second`:
`steps_per_quarter * qpm / 60.0`. -/
def steps_per_quarter_to_steps_per_second (steps_per_quarter : ℤ) (qpm : ℚ) : ℚ :=
  (steps_per_quarter : ℚ) * qpm / 60

/-- Stable sort by a rational key (Python's `sorted(..., key=...)`). -/
def sortByKey {α : Type} (key : α → ℚ) (l : List α) : List α :=
  stableSort (fun a b => decide (key a ≤ key b)) l

/-! ## Quantizer (`processors/quantizer.py`) -/

/-- `quantizer.quantize_to_step`:
`int(un_quantized_seconds * steps_per_second + (1 - quantize_cutoff))`. -/
def quantize_to_step (un_quantized_seconds steps_per_second quantize_cutoff : ℚ) : ℤ :=
  pyInt (un_quantized_seconds * steps_per_second + (1 - quantize_cutoff))

/-- The per-note body of `quantizer._quantize_notes`: snap start and end to
steps, widen zero-length notes by one step, reject negative steps, then
rewrite the note times as `step / steps_per_second` (a Python
`ZeroDivisionError` when the resolution is zero). -/
def quantizeNote (steps_per_second : ℚ) (note : Note) : Except PyError Note :=
  let qss := quantize_to_step note.start_time steps_per_second QUANTIZE_CUTOFF
  let qes0 := quantize_to_step note.end_time steps_per_second QUANTIZE_CUTOFF
  let qes := if qes0 = qss then qes0 + 1 else qes0
  if qss < 0 ∨ qes < 0 then .error .negativeTime
  else if steps_per_second = 0 then .error .zeroDivision
  else .ok { note with
             quantized_start_step := qss
             quantized_end_step := qes
             start_time := (qss : ℚ) / steps_per_second
             end_time := (qes : ℚ) / steps_per_second }

/-- `_quantize_notes` applied to the note list in order. -/
def quantizeNoteList (steps_per_second : ℚ) : List Note → Except PyError (List Note)
  | [] => .ok []
  | n :: rest => do
    let n' ← quantizeNote steps_per_second n
    let rest' ← quantizeNoteList steps_per_second rest
    .ok (n' :: rest')

/-- The per-control-change body of `_quantize_notes`: snap the event time,
rewrite it as `step / steps_per_second`, then reject a negative step. -/
def quantizeControlChange (steps_per_second : ℚ) (cc : ControlChange) :
    Except PyError ControlChange :=
  let step := quantize_to_step cc.time steps_per_second QUANTIZE_CUTOFF
  if steps_per_second = 0 then .error .zeroDivision
  else if step < 0 then .error .negativeTime
  else .ok { cc with quantized_step := step, time := (step : ℚ) / steps_per_second }

/-- `_quantize_notes` applied to the control-change list in order. -/
def quantizeControlChangeList (steps_per_second : ℚ) :
    List ControlChange → Except PyError (List ControlChange)
  | [] => .ok []
  | cc :: rest => do
    let cc' ← quantizeControlChange steps_per_second cc
    let rest' ← quantizeControlChangeList steps_per_second rest
    .ok (cc' :: rest')

/-- The per-text-annotation body of `_quantize_notes` (same rule as control
changes). -/
def quantizeTextAnnot (steps_per_second : ℚ) (ta : TextAnnot) :
    Except PyError TextAnnot :=
  let step := quantize_to_step ta.time steps_per_second QUANTIZE_CUTOFF
  if steps_per_second = 0 then .error .zeroDivision
  else if step < 0 then .error .negativeTime
  else .ok { ta with quantized_step := step, time := (step : ℚ) / steps_per_second }

/-- `_quantize_notes` applied to the text-annotation list in order. -/
def quantizeTextAnnotList (steps_per_second : ℚ) :
    List TextAnnot → Except PyError (List TextAnnot)
  | [] => .ok []
  | ta :: rest => do
    let ta' ← quantizeTextAnnot steps_per_second ta
    let rest' ← quantizeTextAnnotList steps_per_second rest
    .ok (ta' :: rest')

/-- `quantizer._quantize_notes`: quantize notes, then control changes and
text annotations, raising `total_quantized_steps` to any larger note end
step. -/
def _quantize_notes (ns : NoteSequence) (steps_per_second : ℚ) :
    Except PyError NoteSequence := do
  let notes ← quantizeNoteList steps_per_second ns.notes
  let ccs ← quantizeControlChangeList steps_per_second ns.control_changes
  let tas ← quantizeTextAnnotList steps_per_second ns.text_annots
  let total := notes.foldl
    (fun acc n => if n.quantized_end_step > acc then n.quantized_end_step else acc)
    ns.total_quantized_steps
  .ok { ns with
        notes := notes
        control_changes := ccs
        text_annots := tas
        total_quantized_steps := total }

/-- `quantizer.quantize_note_sequence._is_power_of_2`:
`x and not x & (x - 1)`. -/
def _is_power_of_2 (x : ℤ) : Bool :=
  decide (x ≠ 0) && decide (Int.land x (x - 1) = 0)

/-- The time-signature validation block of `quantize_note_sequence`
(lines 41-71): sort by time, reject an implicit change away from 4/4,
reject any later signature differing from the first *stored* signature
(`qns.time_signatures[0]`, not the earliest-in-time one), then keep the
first stored signature moved to time 0; an empty list yields implicit 4/4
at time 0. -/
def resolveTimeSignatures (tss : List TimeSignature) :
    Except PyError TimeSignature :=
  match tss with
  | [] => .ok ⟨0, 4, 4⟩
  | ts0 :: _ =>
    match sortByKey (fun ts => ts.time) tss with
    | [] => .ok ⟨0, 4, 4⟩
    | s0 :: srest =>
      if s0.time ≠ 0 ∧ ¬(s0.numerator = 4 ∧ s0.denominator = 4) then
        .error .multipleTimeSignature
      else if srest.any (fun ts =>
          decide (ts.numerator ≠ ts0.numerator) ||
          decide (ts.denominator ≠ ts0.denominator)) then
        .error .multipleTimeSignature
      else .ok { ts0 with time := 0 }

/-- The tempo validation block of `quantize_note_sequence` (lines 81-104):
sort by time, reject an implicit change away from 120 QPM, reject any later
tempo differing from the first *stored* tempo (`qns.tempos[0]`), then keep
the first stored tempo moved to time 0; an empty list yields implicit
120 QPM at time 0. -/
def resolveTempos (tempos : List Tempo) : Except PyError Tempo :=
  match tempos with
  | [] => .ok ⟨0, DEFAULT_QUARTERS_PER_MINUTE⟩
  | t0 :: _ =>
    match sortByKey (fun t => t.time) tempos with
    | [] => .ok ⟨0, DEFAULT_QUARTERS_PER_MINUTE⟩
    | s0 :: srest =>
      if s0.time ≠ 0 ∧ s0.qpm ≠ DEFAULT_QUARTERS_PER_MINUTE then
        .error .multipleTempo
      else if srest.any (fun t => decide (t.qpm ≠ t0.qpm)) then
        .error .multipleTempo
      else .ok { t0 with time := 0 }

/-- `quantizer.quantize_note_sequence`: relative quantization. -/
def quantize_note_sequence (note_sequence : NoteSequence) (steps_per_quarter : ℤ) :
    Except PyError NoteSequence := do
  let qns := { note_sequence with
               quantization_info :=
                 { note_sequence.quantization_info with
                   steps_per_quarter := steps_per_quarter } }
  let ts ← resolveTimeSignatures qns.time_signatures
  if ¬ _is_power_of_2 ts.denominator then .error .badTimeSignature
  else if ts.numerator = 0 then .error .badTimeSignature
  else do
    let tempo ← resolveTempos qns.tempos
    let steps_per_second :=
      steps_per_quarter_to_steps_per_second steps_per_quarter tempo.qpm
    let qns := { qns with
                 time_signatures := [ts]
                 tempos := [tempo]
                 total_quantized_steps :=
                   quantize_to_step qns.total_time steps_per_second QUANTIZE_CUTOFF }
    _quantize_notes qns steps_per_second

/-- `quantizer.quantize_note_sequence_absolute`: absolute quantization. -/
def quantize_note_sequence_absolute (note_sequence : NoteSequence)
    (steps_per_second : ℚ) : Except PyError NoteSequence :=
  let qns := { note_sequence with
               quantization_info :=
                 { note_sequence.quantization_info with
                   steps_per_second := steps_per_second }
               total_quantized_steps :=
                 quantize_to_step note_sequence.total_time steps_per_second
                   QUANTIZE_CUTOFF }
  _quantize_notes qns steps_per_second

/-! ## Truncator (`processors/truncator.py`) -/

/-- `truncator.truncate_quantized_sequence_at_step`: requires relative
quantization, then for every note whose `quantized_end_step` exceeds
`end_step` records `del_note_index = idx + 1`, clamps the end step and
recomputes `end_time = end_step / quantization_info.steps_per_second`
(a `ZeroDivisionError` when that field is zero, as it is for every
relative-quantized sequence), and finally deletes `notes[:del_note_index]`. -/
def truncate_quantized_sequence_at_step (note_sequence : NoteSequence)
    (end_step : ℤ) : Except PyError NoteSequence := do
  if ¬ is_relative_quantized_sequence note_sequence then
    .error .quantizationStatus
  else do
    let steps_per_second := note_sequence.quantization_info.steps_per_second
    let res ← note_sequence.notes.enum.foldlM
      (fun (st : ℕ × List Note) p =>
        let idx := p.1
        let note := p.2
        if note.quantized_end_step > end_step then
          if steps_per_second = 0 then .error .zeroDivision
          else .ok (idx + 1,
            st.2 ++ [{ note with
                       quantized_end_step := end_step
                       end_time := (end_step : ℚ) / steps_per_second }])
        else .ok (st.1, st.2 ++ [note]))
      ((0, []) : ℕ × List Note)
    .ok { note_sequence with notes := res.2.drop res.1 }

/-! ## Subsequence extractor (`processors/extractor.py`, `extract_subsequences`) -/

/-- `extract_subsequences._check_time_in_interval`:
`float_less_or_equal(interval[0], time) and float_less(time, interval[1])`. -/
def check_time_in_interval (time : ℚ) (interval : ℚ × ℚ) : Bool :=
  float_less_or_equal interval.1 time && float_less time interval.2

/-- Replace the list at index `i` of a list-of-lists by appending `x`. -/
def appendAt {α : Type} (ls : List (List α)) (i : ℕ) (x : α) : List (List α) :=
  ls.set i (ls.getD i [] ++ [x])

/-- The note-distribution loop of `extract_subsequences`: each note whose
start time is not before the first interval start is appended (rebased,
end clamped) to every subsequence whose interval contains its start, and
the subsequence's `total_time` raised to the clamped end. -/
def addNoteToSubsequences (intervals : List (ℚ × ℚ)) (first_start : ℚ)
    (subs : List NoteSequence) (note : Note) : List NoteSequence :=
  if float_less note.start_time first_start then subs
  else
    intervals.enum.foldl
      (fun subs p =>
        let idx := p.1
        let interval := p.2
        if check_time_in_interval note.start_time interval then
          match subs.get? idx with
          | some s =>
            let new_note := { note with
                              start_time := note.start_time - interval.1
                              end_time := min note.end_time interval.2 - interval.1 }
            subs.set idx
              { s with
                notes := s.notes ++ [new_note]
                total_time :=
                  if float_great new_note.end_time s.total_time then
                    new_note.end_time
                  else s.total_time }
          | none => subs
        else subs)
      subs

/-- The stateful-event loop of `extract_subsequences` (lines 458-491) for
one event type: events sorted by time; an event before an interval's start
becomes that interval's previous state, an event inside is appended
rebased; afterwards an interval whose container stayed empty receives its
previous state at relative time 0. Returns the per-interval containers. -/
def distributeStateful {α : Type} [DecidableEq α] (getT : α → ℚ)
    (setT : ℚ → α → α) (events : List α) (intervals : List (ℚ × ℚ)) :
    List (List α) :=
  let n := intervals.length
  let step := fun (st : List (Option α) × List (List α)) (event : α) =>
    intervals.enum.foldl
      (fun (st : List (Option α) × List (List α)) p =>
        let idx := p.1
        let interval := p.2
        if float_less (getT event) interval.1 then
          (st.1.set idx (some event), st.2)
        else if check_time_in_interval (getT event) interval then
          (st.1, appendAt st.2 idx (setT (getT event - interval.1) event))
        else st)
      st
  let res := (sortByKey getT events).foldl step
    (List.replicate n (none : Option α), List.replicate n ([] : List α))
  ((res.1.zip res.2).map
    (fun pc =>
      match pc.1 with
      | some event => if pc.2.isEmpty then [setT 0 event] else pc.2
      | none => pc.2))

/-- The pedal-event loop of `extract_subsequences` (lines 508-521): a pedal
event before an interval's start is recorded in `previous_pedal_events`
(a *single* dict shared by all intervals, `[{}] * len(subsequences)`, and
never read back afterwards — the carry-over state is dead); an event inside
an interval is appended rebased to that subsequence. -/
def distributePedal (intervals : List (ℚ × ℚ)) (pedal_events : List ControlChange)
    (subs : List NoteSequence) :
    List NoteSequence × List ((ℤ × ℤ) × ControlChange) :=
  (sortByKey (fun cc => cc.time) pedal_events).foldl
    (fun (st : List NoteSequence × List ((ℤ × ℤ) × ControlChange)) cc =>
      intervals.enum.foldl
        (fun (st : List NoteSequence × List ((ℤ × ℤ) × ControlChange)) p =>
          let idx := p.1
          let interval := p.2
          if float_less cc.time interval.1 then
            (st.1,
             ((cc.instrument, cc.control_number), cc) ::
               st.2.filter (fun e => e.1 ≠ (cc.instrument, cc.control_number)))
          else if check_time_in_interval cc.time interval then
            match st.1.get? idx with
            | some s =>
              (st.1.set idx
                { s with control_changes :=
                    s.control_changes ++ [{ cc with time := cc.time - interval.1 }] },
               st.2)
            | none => st
          else st)
        st)
    (subs, [])

/-- `extractor.extract_subsequences`. The beat-annotation pass evaluates
`annotation.annotation_type in NoteSequence.TextAnnotation.BEAT` for every
text annotation; `BEAT` is the int enum value `2`, so Python raises
`TypeError` as soon as one text annotation exists. -/
def extract_subsequences (sequence : NoteSequence)
    (subsequences_intervals : List (ℚ × ℚ)) (preserve_control_numbers : List ℤ) :
    Except PyError (List NoteSequence) := do
  if subsequences_intervals.isEmpty then .error .valueError
  else if ((subsequences_intervals.map (fun t => [t.1, t.2])).flatten).any
      (fun time => float_great time sequence.total_time) then
    .error .valueError
  else do
    let base := { sequence with
                  total_time := 0
                  notes := []
                  time_signatures := []
                  key_signatures := []
                  tempos := []
                  text_annots := []
                  control_changes := []
                  pitch_bends := [] }
    let intervals := sortByKey (fun iv => iv.1) subsequences_intervals
    let subs0 := List.replicate intervals.length base
    let first_start := (intervals.headD (0, 0)).1
    let subs1 := (sortByKey (fun n => n.start_time) sequence.notes).foldl
      (addNoteToSubsequences intervals first_start) subs0
    let tsLists := distributeStateful (fun ts => ts.time)
      (fun t ts => { ts with time := t }) sequence.time_signatures intervals
    let ksLists := distributeStateful (fun ks => ks.time)
      (fun t ks => { ks with time := t }) sequence.key_signatures intervals
    let tempoLists := distributeStateful (fun tp => tp.time)
      (fun t tp => { tp with time := t }) sequence.tempos intervals
    let chordLists := distributeStateful (fun ta => ta.time)
      (fun t ta => { ta with time := t })
      (sequence.text_annots.filter (fun ta => decide (ta.annot_type = .chordSymbol)))
      intervals
    let subs2 := (((subs1.zip tsLists).zip (ksLists.zip tempoLists)).zip chordLists).map
      (fun x =>
        { x.1.1.1 with
          time_signatures := x.1.1.2
          key_signatures := x.1.2.1
          tempos := x.1.2.2
          text_annots := x.2 })
    let subs3 ← if sequence.text_annots.isEmpty then pure subs2
      else .error .typeError
    let pedal_events := sequence.control_changes.filter
      (fun cc => preserve_control_numbers.contains cc.control_number)
    let subs4 := (distributePedal intervals pedal_events subs3).1
    let subs5 ←
      if is_absolute_quantized_sequence sequence then
        subs4.mapM (fun s =>
          quantize_note_sequence_absolute s sequence.quantization_info.steps_per_second)
      else if is_relative_quantized_sequence sequence then
        subs4.mapM (fun s =>
          quantize_note_sequence s sequence.quantization_info.steps_per_quarter)
      else pure subs4
    let subs6 := (subs5.zip intervals).map
      (fun x =>
        { x.1 with
          subsequence_info :=
            { start_time_offset := x.2.1
              end_time_offset := sequence.total_time - x.2.1 - x.1.total_time } })
    .ok (subs6.filter (fun s => !s.notes.isEmpty))

/-! ## Melody extractor (`processors/extractor.py`,
`extract_melody_from_note_sequence`) -/

/-- The note walk of `extract_melody_from_note_sequence` (lines 242-282):
drum/zero-velocity notes are skipped; a note starting at the last accepted
note's start step is a polyphony conflict (skipped or a hard error); a note
starting earlier is a hard error; the walk stops when
`note_end_step - last_note.quantized_end_step >= gap_bars * steps_per_bar`
(the *end*-step distance, `off_distance`); otherwise a still-sounding last
note is truncated to the new start and the note is appended rebased. -/
def melodyWalk (steps_per_bar gap_bars : ℤ) (ignore_polyphonic_notes : Bool)
    (filter_drums : Bool) (melody_start_step : ℤ) (steps_per_second : ℚ) :
    List Note → List Note → Except PyError (List Note)
  | [], acc => .ok acc
  | note :: rest, acc =>
    if (filter_drums && note.is_drum) || decide (note.velocity = 0) then
      melodyWalk steps_per_bar gap_bars ignore_polyphonic_notes filter_drums
        melody_start_step steps_per_second rest acc
    else
      let note_start_step := note.quantized_start_step - melody_start_step
      let note_end_step := note.quantized_end_step - melody_start_step
      let new_note := { note with
                        quantized_start_step := note_start_step
                        quantized_end_step := note_end_step
                        start_time := (note_start_step : ℚ) / steps_per_second
                        end_time := (note_end_step : ℚ) / steps_per_second }
      match acc.getLast? with
      | none =>
        melodyWalk steps_per_bar gap_bars ignore_polyphonic_notes filter_drums
          melody_start_step steps_per_second rest (acc ++ [new_note])
      | some last_note =>
        let on_distance := note_start_step - last_note.quantized_start_step
        let off_distance := note_end_step - last_note.quantized_end_step
        if on_distance = 0 then
          if ignore_polyphonic_notes then
            melodyWalk steps_per_bar gap_bars ignore_polyphonic_notes filter_drums
              melody_start_step steps_per_second rest acc
          else .error .polyphonicMelody
        else if on_distance < 0 then .error .polyphonicMelody
        else if off_distance ≥ gap_bars * steps_per_bar then .ok acc
        else
          let acc' :=
            if last_note.quantized_end_step > note_start_step then
              acc.dropLast ++
                [{ last_note with
                   quantized_end_step := note_start_step
                   end_time := (note_start_step : ℚ) / steps_per_second }]
            else acc
          melodyWalk steps_per_bar gap_bars ignore_polyphonic_notes filter_drums
            melody_start_step steps_per_second rest (acc' ++ [new_note])

/-- `extractor.extract_melody_from_note_sequence`. Returns `none` when no
melody is found. The final text-annotation pass appends matching
annotations to `melody.pitch_bends`, which raises a Python `TypeError` at
the first annotation inside the melody's time span. -/
def extract_melody_from_note_sequence (quantized_sequence : NoteSequence)
    (search_start_step : ℤ) (min_pitch max_pitch instrument gap_bars : ℤ)
    (ignore_polyphonic_notes filter_drums : Bool) (valid_programs : List ℤ) :
    Except PyError (Option NoteSequence) := do
  if ¬ is_relative_quantized_sequence quantized_sequence then
    .error .quantizationStatus
  else do
    let time_signature ←
      match quantized_sequence.time_signatures with
      | [] => .error PyError.indexError
      | ts :: _ => .ok ts
    if time_signature.denominator = 0 then .error .zeroDivision
    else do
      let quarters_per_bar :=
        4 / (time_signature.denominator : ℚ) * (time_signature.numerator : ℚ)
      let steps_per_bar_float :=
        (quantized_sequence.quantization_info.steps_per_quarter : ℚ) * quarters_per_bar
      if steps_per_bar_float.den ≠ 1 then .error .nonIntegerStepsPerBar
      else do
        let steps_per_bar := pyInt steps_per_bar_float
        let qpm ←
          match quantized_sequence.tempos with
          | [] => .error PyError.indexError
          | t :: _ => .ok t.qpm
        let steps_per_second := steps_per_quarter_to_steps_per_second
          quantized_sequence.quantization_info.steps_per_quarter qpm
        let notes := (quantized_sequence.notes.filter
          (fun n =>
            decide (n.instrument = instrument) &&
            valid_programs.contains n.program &&
            decide (n.quantized_start_step ≥ search_start_step) &&
            decide (min_pitch ≤ n.pitch) && decide (n.pitch ≤ max_pitch)))
        let notes := stableSort
          (fun a b =>
            decide (a.quantized_start_step < b.quantized_start_step) ||
            (decide (a.quantized_start_step = b.quantized_start_step) &&
             decide (-a.pitch ≤ -b.pitch))) notes
        match notes with
        | [] => .ok none
        | n0 :: _ => do
          if steps_per_bar = 0 then .error .zeroDivision
          else if steps_per_second = 0 then .error .zeroDivision
          else do
            let melody_start_step := n0.quantized_start_step -
              pyMod (n0.quantized_start_step - search_start_step) steps_per_bar
            let melody_start_time := (melody_start_step : ℚ) / steps_per_second
            let walked ← melodyWalk steps_per_bar gap_bars ignore_polyphonic_notes
              filter_drums melody_start_step steps_per_second notes []
            match walked.getLast? with
            | none => .ok none
            | some last => do
              let melody := { quantized_sequence with
                              text_annots := []
                              pitch_bends := []
                              control_changes := []
                              notes := walked
                              total_quantized_steps := last.quantized_end_step
                              total_time := last.end_time }
              let melody := { melody with
                control_changes := quantized_sequence.control_changes.filter
                  (fun cc =>
                    float_less_or_equal melody_start_time cc.time &&
                    float_less cc.time melody.total_time &&
                    decide (cc.instrument = instrument) &&
                    valid_programs.contains cc.program)
                pitch_bends := quantized_sequence.pitch_bends.filter
                  (fun pb =>
                    float_less_or_equal melody_start_time pb.time &&
                    float_less pb.time melody.total_time &&
                    decide (pb.instrument = instrument) &&
                    valid_programs.contains pb.program) }
              if quantized_sequence.text_annots.any
                  (fun ta =>
                    float_less_or_equal melody_start_time ta.time &&
                    float_less ta.time melody.total_time) then
                .error .typeError
              else .ok (some melody)

/-! ## Sustain resolver (`processors/sustainer.py`) -/

/-- One entry of the merged event stream of `apply_sustain_control_changes`:
`kind` is the sort priority (`0` sustain-on, `1` sustain-off, `2` note-on,
`3` note-off); note events carry the index of their note object. -/
structure SustainEvent where
  time : ℚ
  kind : ℕ
  noteId : ℕ
  instrument : ℤ
deriving DecidableEq, Repr, Inhabited

/-- The sort key of `events.sort(key=operator.itemgetter(0, 1))`. -/
def sustainEventLE (a b : SustainEvent) : Bool :=
  decide (a.time < b.time) || (decide (a.time = b.time) && decide (a.kind ≤ b.kind))

/-- The merged note-on / note-off / sustain-on / sustain-off stream of
`apply_sustain_control_changes` (drum notes excluded; control value `>= 64`
is sustain-on, `< 64` sustain-off), in pre-sort construction order. -/
def sustainEvents (ns : NoteSequence) (sustain_control_number : ℤ) :
    List SustainEvent :=
  ns.notes.enum.filterMap
    (fun p => if p.2.is_drum then none
      else some ⟨p.2.start_time, 2, p.1, p.2.instrument⟩) ++
  ns.notes.enum.filterMap
    (fun p => if p.2.is_drum then none
      else some ⟨p.2.end_time, 3, p.1, p.2.instrument⟩) ++
  ns.control_changes.filterMap
    (fun cc =>
      if cc.control_number ≠ sustain_control_number then none
      else if cc.control_value ≥ 64 then some ⟨cc.time, 0, 0, cc.instrument⟩
      else some ⟨cc.time, 1, 0, cc.instrument⟩)

/-- The mutable state of the sustain walk. Python mutates shared note
objects; here every note object lives at a fixed index of `notes`,
`removed` records indices deleted from the sequence's collection
(`sequence.notes.remove`), `active` maps an instrument to the ids of its
active-note list, and `sus` holds each instrument's sustain flag. -/
structure SustainState where
  notes : List Note
  removed : List ℕ
  active : List (ℤ × List ℕ)
  sus : List (ℤ × Bool)
  total_time : ℚ
  time : ℚ
deriving DecidableEq, Repr

/-- `active_notes[instrument]` (defaultdict of lists). -/
def activeGet (active : List (ℤ × List ℕ)) (q : ℤ) : List ℕ :=
  (active.lookup q).getD []

/-- Assignment to `active_notes[instrument]`. -/
def activeSet (active : List (ℤ × List ℕ)) (q : ℤ) (l : List ℕ) :
    List (ℤ × List ℕ) :=
  if active.any (fun p => decide (p.1 = q)) then
    active.map (fun p => if p.1 = q then (q, l) else p)
  else active ++ [(q, l)]

/-- `sus_active[instrument]` (defaultdict of `False`). -/
def susGet (sus : List (ℤ × Bool)) (q : ℤ) : Bool :=
  (sus.lookup q).getD false

/-- Assignment to `sus_active[instrument]`. -/
def susSet (sus : List (ℤ × Bool)) (q : ℤ) (b : Bool) : List (ℤ × Bool) :=
  if sus.any (fun p => decide (p.1 = q)) then
    sus.map (fun p => if p.1 = q then (q, b) else p)
  else sus ++ [(q, b)]

/-- Read the note object at index `i`. -/
def noteGet (notes : List Note) (i : ℕ) : Note :=
  notes.getD i default

/-- Mutate `note.end_time` of the object at index `i`. -/
def setNoteEnd (notes : List Note) (i : ℕ) (t : ℚ) : List Note :=
  match notes.get? i with
  | some n => notes.set i { n with end_time := t }
  | none => notes

/-- `active_notes[instrument].remove(event)` preceded by an `in` check:
drop the first id whose current note value is structurally equal to `v`
(Python protobuf equality is structural); absent values leave the list
unchanged. -/
def removeFirstEq (notes : List Note) (ids : List ℕ) (v : Note) : List ℕ :=
  match ids with
  | [] => []
  | i :: rest =>
    if noteGet notes i = v then rest else i :: removeFirstEq notes rest v

/-- `sequence.notes.remove(note)`: the index of the first note still in the
sequence's collection that is structurally equal to `v`. -/
def findRemoveTarget (notes : List Note) (removed : List ℕ) (v : Note) :
    Option ℕ :=
  ((notes.enum.filter (fun p => !removed.contains p.1)).find?
    (fun p => decide (p.2 = v))).map (fun p => p.1)

/-- One iteration of the event loop of `apply_sustain_control_changes`
(lines 70-120). -/
def sustainStep (st : SustainState) (e : SustainEvent) :
    Except PyError SustainState :=
  let st := { st with time := e.time }
  if e.kind = 0 then
    .ok { st with sus := susSet st.sus e.instrument true }
  else if e.kind = 1 then
    let res := (activeGet st.active e.instrument).foldl
      (fun (acc : List Note × ℚ × List ℕ) i =>
        let note := noteGet acc.1 i
        if note.end_time < e.time then
          (setNoteEnd acc.1 i e.time,
           if e.time > acc.2.1 then e.time else acc.2.1,
           acc.2.2)
        else (acc.1, acc.2.1, acc.2.2 ++ [i]))
      (st.notes, st.total_time, [])
    .ok { st with
          sus := susSet st.sus e.instrument false
          notes := res.1
          total_time := res.2.1
          active := activeSet st.active e.instrument res.2.2 }
  else if e.kind = 2 then
    if susGet st.sus e.instrument then do
      let pitch := (noteGet st.notes e.noteId).pitch
      let res ← (activeGet st.active e.instrument).foldlM
        (fun (acc : List Note × List ℕ × List ℕ) i =>
          let note := noteGet acc.1 i
          if note.pitch = pitch then
            let notes' := setNoteEnd acc.1 i e.time
            let note' := noteGet notes' i
            if note'.start_time = note'.end_time then
              match findRemoveTarget notes' acc.2.1 note' with
              | some j => .ok (notes', acc.2.1 ++ [j], acc.2.2)
              | none => .error PyError.valueError
            else .ok (notes', acc.2.1, acc.2.2)
          else .ok (acc.1, acc.2.1, acc.2.2 ++ [i]))
        (st.notes, st.removed, [])
      .ok { st with
            notes := res.1
            removed := res.2.1
            active := activeSet st.active e.instrument (res.2.2 ++ [e.noteId]) }
    else
      .ok { st with
            active := activeSet st.active e.instrument
              (activeGet st.active e.instrument ++ [e.noteId]) }
  else
    if susGet st.sus e.instrument then .ok st
    else
      .ok { st with
            active := activeSet st.active e.instrument
              (removeFirstEq st.notes (activeGet st.active e.instrument)
                (noteGet st.notes e.noteId)) }

/-- The sorted-stream fold of `apply_sustain_control_changes`. -/
def sustainWalk (ns : NoteSequence) (sustain_control_number : ℤ) :
    Except PyError SustainState :=
  (stableSort sustainEventLE (sustainEvents ns sustain_control_number)).foldlM
    sustainStep
    ({ notes := ns.notes, removed := [], active := [], sus := [],
       total_time := ns.total_time, time := 0 } : SustainState)

/-- The ids left in the active-note lists after the stream is exhausted. -/
def sustainActiveIds (st : SustainState) : List ℕ :=
  st.active.foldl (fun acc p => acc ++ p.2) []

/-- The final block of `apply_sustain_control_changes` (lines 122-126):
every note still tracked as active has its `end_time` set to the last
processed event time and `sequence.total_time` is *assigned* that time;
the returned collection drops the indices removed during the walk. -/
def finalizeSustain (ns : NoteSequence) (st : SustainState) : NoteSequence :=
  let ids := sustainActiveIds st
  let notes := ids.foldl (fun notes i => setNoteEnd notes i st.time) st.notes
  { ns with
    notes := (notes.enum.filter (fun p => !st.removed.contains p.1)).map
      (fun p => p.2)
    total_time := if ids.isEmpty then st.total_time else st.time }

/-- `sustainer.apply_sustain_control_changes`. -/
def apply_sustain_control_changes (note_sequence : NoteSequence)
    (sustain_control_number : ℤ) : Except PyError NoteSequence := do
  if is_quantized_sequence note_sequence then .error .quantizationStatus
  else do
    let st ← sustainWalk note_sequence sustain_control_number
    .ok (finalizeSustain note_sequence st)

/-! ## Basic facts about `pyInt` -/

theorem pyInt_of_nonneg {q : ℚ} (h : 0 ≤ q) : pyInt q = ⌊q⌋ :=
  if_pos h

theorem pyInt_of_neg {q : ℚ} (h : q < 0) : pyInt q = ⌈q⌉ :=
  if_neg (not_le.mpr h)

theorem pyInt_mono {a b : ℚ} (h : a ≤ b) : pyInt a ≤ pyInt b := by
  unfold pyInt
  split
  · split
    · exact Int.floor_le_floor h
    · exact absurd (le_trans (by assumption) h) (by assumption)
  · split
    · calc ⌈a⌉ ≤ 0 := Int.ceil_le.mpr (by simpa using le_of_lt (not_le.mp (by assumption)))
        _ ≤ ⌊b⌋ := Int.le_floor.mpr (by simpa using (by assumption : (0:ℚ) ≤ b))
    · exact Int.ceil_le_ceil h

/-! ## Concrete sequences used to settle the claims -/

/-- The all-empty unquantized sequence every concrete example extends. -/
def emptySeq : NoteSequence :=
  { ticks_per_quarter := 220, total_time := 0, total_quantized_steps := 0,
    quantization_info := { steps_per_quarter := 0, steps_per_second := 0 },
    subsequence_info := { start_time_offset := 0, end_time_offset := 0 },
    notes := [], control_changes := [], pitch_bends := [], text_annots := [],
    time_signatures := [], key_signatures := [], tempos := [] }

/-- A non-drum instrument-0 program-0 note with velocity 100. -/
def mkNote (p : ℤ) (s e : ℚ) (qs qe : ℤ) : Note :=
  { pitch := p, velocity := 100, instrument := 0, program := 0, is_drum := false,
    start_time := s, end_time := e, quantized_start_step := qs,
    quantized_end_step := qe }

/-! ## C1 -/

/-- The spec's own truncation scenario: a relative-quantized sequence
(4 steps per quarter, 4/4, 120 QPM) with notes at quantized steps
`[0,4]`, `[4,8]`, `[8,12]`. -/
def c1seq : NoteSequence :=
  { emptySeq with
    total_time := 3/2
    total_quantized_steps := 12
    quantization_info := { steps_per_quarter := 4, steps_per_second := 0 }
    time_signatures := [⟨0, 4, 4⟩]
    tempos := [⟨0, 120⟩]
    notes := [mkNote 60 0 (1/2) 0 4, mkNote 62 (1/2) 1 4 8,
              mkNote 64 1 (3/2) 8 12] }

/-- C1: on the spec's own scenario (notes ending at steps 4, 8, 12,
truncated at step 10) `truncate_quantized_sequence_at_step` does not return
the claimed three notes ending at `[4, 8, 10]`: it raises
`ZeroDivisionError`, because it recomputes the shortened end time as
`end_step / quantization_info.steps_per_second`, and that field is `0` for
every relative-quantized sequence. -/
theorem truncate_at_step_zero_division :
    truncate_quantized_sequence_at_step c1seq 10 = .error .zeroDivision := by
  decide

/-! ## C2 -/

/-- An unquantized sequence with one note in `[1, 2]` and a sustain-pedal
control change (number 64, value 100) at time 0, total time 2. -/
def c2seq : NoteSequence :=
  { emptySeq with
    total_time := 2
    notes := [mkNote 60 1 2 0 0]
    control_changes := [{ time := 0, control_number := 64, control_value := 100,
                          instrument := 0, program := 0, is_drum := false,
                          quantized_step := 0 }] }

/-- C2: extracting the interval `[1, 2)` — whose own pedal-event copy is
empty while a sustain control change (number 64, on the default preserve
list) precedes the interval start — produces a subsequence whose
`control_changes` list is empty: the most recent pedal state is collected
into `previous_pedal_events` but never synthesized into any output, so the
claimed carry-over does not happen. -/
theorem extract_subsequences_no_pedal_carryover :
    (extract_subsequences c2seq [(1, 2)]
        DEFAULT_SUBSEQUENCE_PRESERVE_CONTROL_NUMBERS).map
      (fun l => l.map (fun s => s.control_changes)) = .ok [[]] := by
  decide

/-! ## C3 -/

/-- C3 counterexample: an interval with a negative start (`(-1, 2)` on a
sequence of total time 2) is not rejected — `extract_subsequences` checks
only the upper bound, returns successfully, and produces one output
containing the note, contradicting "every interval with a negative start
or end is rejected before any output is produced". -/
theorem extract_subsequences_accepts_negative_interval :
    (extract_subsequences c2seq [(-1, 2)]
        DEFAULT_SUBSEQUENCE_PRESERVE_CONTROL_NUMBERS).map
      (fun l => l.map (fun s => s.notes.length)) = .ok [1] := by
  decide

/-- Whether an `Except` computation raised. -/
def isError {ε α : Type} : Except ε α → Bool
  | .error _ => true
  | .ok _ => false

/-- C3 (amended): for an unquantized source with no text annotations
(re-quantization and the beat-annotation pass can raise independently),
`extract_subsequences` raises a hard error if and only if the interval
list is empty or some interval endpoint strictly exceeds `total_time`
under the tolerant comparison; negative endpoints are *not* rejected. -/
theorem extract_subsequences_error_iff (s : NoteSequence) (ivs : List (ℚ × ℚ)) (pcn : List ℤ)
    (hq : is_quantized_sequence s = false) (hta : s.text_annots = []) :
    isError (extract_subsequences s ivs pcn) = true ↔
      (ivs = [] ∨ ∃ iv ∈ ivs, float_great iv.1 s.total_time = true ∨
        float_great iv.2 s.total_time = true) := by
  have habs : is_absolute_quantized_sequence s = false := by
    simp only [is_quantized_sequence, Bool.or_eq_false_iff] at hq
    simpa [is_absolute_quantized_sequence] using hq.2
  have hrel : is_relative_quantized_sequence s = false := by
    simp only [is_quantized_sequence, Bool.or_eq_false_iff] at hq
    simpa [is_relative_quantized_sequence] using hq.1
  have hflat : (((ivs.map (fun t => [t.1, t.2])).flatten).any
        (fun time => float_great time s.total_time) = true) ↔
      ∃ iv ∈ ivs, float_great iv.1 s.total_time = true ∨
        float_great iv.2 s.total_time = true := by
    simp only [List.any_eq_true, List.mem_flatten, List.mem_map]
    constructor
    · rintro ⟨x, ⟨l, ⟨iv, hiv, rfl⟩, hx⟩, hgx⟩
      rcases List.mem_cons.mp hx with rfl | hx
      · exact ⟨iv, hiv, Or.inl hgx⟩
      · rcases List.mem_singleton.mp hx with rfl
        exact ⟨iv, hiv, Or.inr hgx⟩
    · rintro ⟨iv, hiv, h | h⟩
      · exact ⟨iv.1, ⟨[iv.1, iv.2], ⟨iv, hiv, rfl⟩, by simp⟩, h⟩
      · exact ⟨iv.2, ⟨[iv.1, iv.2], ⟨iv, hiv, rfl⟩, by simp⟩, h⟩
  by_cases h1 : ivs.isEmpty
  · have hnil : ivs = [] := by simpa [List.isEmpty_iff] using h1
    unfold extract_subsequences
    rw [if_pos h1]
    simp [isError, hnil]
  · by_cases h2 : ((ivs.map (fun t => [t.1, t.2])).flatten).any
        (fun time => float_great time s.total_time)
    · unfold extract_subsequences
      rw [if_neg h1, if_pos h2]
      simp only [isError, true_iff]
      exact Or.inr (hflat.mp h2)
    · constructor
      · intro he
        exfalso
        unfold extract_subsequences at he
        rw [if_neg h1, if_neg h2, hta, habs, hrel] at he
        exact Bool.noConfusion (by exact he)
      · intro h
        exfalso
        rcases h with rfl | h
        · exact h1 (by simp)
        · exact h2 (hflat.mpr h)

/-- Witness for C3's amended theorem: on `c2seq` (total time 2) the
interval `(3, 4)` exceeds the end of the sequence and is rejected. -/
theorem extract_subsequences_error_iff_witness :
    isError (extract_subsequences c2seq [(3, 4)]
      DEFAULT_SUBSEQUENCE_PRESERVE_CONTROL_NUMBERS) = true := by
  rw [extract_subsequences_error_iff c2seq [(3, 4)]
    DEFAULT_SUBSEQUENCE_PRESERVE_CONTROL_NUMBERS (by decide) rfl]
  decide

/-! ## C4 -/

/-- A sequence whose stored time-signature order is reversed with respect
to time: 3/4 at second 5 stored first, 4/4 at second 0 stored second. Its
effective time signature changes from 4/4 to 3/4 at second 5. -/
def c4seq : NoteSequence :=
  { emptySeq with time_signatures := [⟨5, 3, 4⟩, ⟨0, 4, 4⟩] }

/-- The same two time signatures stored in chronological order. -/
def c4seqOrdered : NoteSequence :=
  { emptySeq with time_signatures := [⟨0, 4, 4⟩, ⟨5, 3, 4⟩] }

/-- C4: `quantize_note_sequence` compares later time signatures against the
first *stored* signature (`qns.time_signatures[0]`), not the earliest in
time, so the same pair of distinct effective signatures (4/4 at 0, 3/4 at
5) raises `MultipleTimeSignatureError` when stored chronologically but is
silently accepted — keeping 3/4 — when stored out of order. The claimed
order-independence fails. -/
theorem quantize_misses_out_of_order_signature_change :
    (quantize_note_sequence c4seq 4).map (fun s => s.time_signatures) =
        .ok [⟨0, 3, 4⟩] ∧
      quantize_note_sequence c4seqOrdered 4 = .error .multipleTimeSignature := by
  constructor
  · decide
  · decide

/-! ## C5 -/

/-- C5 counterexample: at `t = 3/4`, `steps_per_second = 1` the fractional
step offset equals the cutoff `0.75`, and the computed step is
`⌊t * sps⌋ + 1` — the time rounds *up* at the cutoff, contradicting the
claim that an offset at or below the cutoff rounds down. -/
theorem quantize_to_step_boundary_rounds_up :
    Int.fract ((3/4 : ℚ) * 1) = QUANTIZE_CUTOFF ∧
      quantize_to_step (3/4) 1 QUANTIZE_CUTOFF = ⌊(3/4 : ℚ) * 1⌋ + 1 := by
  constructor
  · decide
  · decide

/-- C5 (amended): for non-negative time and resolution,
`quantize_to_step t sps cutoff` with the default cutoff `0.75` equals
`⌊t * sps + (1 - cutoff)⌋`; a fractional step offset strictly below the
cutoff rounds down and an offset at or above it rounds up; and the same
rule is applied to note start times, note end times (before the one-step
widening), control-change times and text-annotation times during
quantization. -/
theorem quantize_to_step_floor_rule (t sps : ℚ) (ht : 0 ≤ t) (hs : 0 ≤ sps) :
    quantize_to_step t sps QUANTIZE_CUTOFF = ⌊t * sps + (1 - QUANTIZE_CUTOFF)⌋ ∧
    (Int.fract (t * sps) < QUANTIZE_CUTOFF →
      quantize_to_step t sps QUANTIZE_CUTOFF = ⌊t * sps⌋) ∧
    (QUANTIZE_CUTOFF ≤ Int.fract (t * sps) →
      quantize_to_step t sps QUANTIZE_CUTOFF = ⌊t * sps⌋ + 1) ∧
    (∀ note n', quantizeNote sps note = .ok n' →
      n'.quantized_start_step =
        quantize_to_step note.start_time sps QUANTIZE_CUTOFF ∧
      (n'.quantized_end_step =
          quantize_to_step note.end_time sps QUANTIZE_CUTOFF ∨
        (quantize_to_step note.end_time sps QUANTIZE_CUTOFF =
            n'.quantized_start_step ∧
          n'.quantized_end_step = n'.quantized_start_step + 1))) ∧
    (∀ cc cc', quantizeControlChange sps cc = .ok cc' →
      cc'.quantized_step = quantize_to_step cc.time sps QUANTIZE_CUTOFF) ∧
    (∀ ta ta', quantizeTextAnnot sps ta = .ok ta' →
      ta'.quantized_step = quantize_to_step ta.time sps QUANTIZE_CUTOFF) := by
  have hx : 0 ≤ t * sps := mul_nonneg ht hs
  have hcut : QUANTIZE_CUTOFF = 3/4 := rfl
  have harg : 0 ≤ t * sps + (1 - QUANTIZE_CUTOFF) := by
    rw [hcut]; linarith
  have hfloor : quantize_to_step t sps QUANTIZE_CUTOFF =
      ⌊t * sps + (1 - QUANTIZE_CUTOFF)⌋ := by
    unfold quantize_to_step
    exact pyInt_of_nonneg harg
  have hsplit : (t * sps + (1 - QUANTIZE_CUTOFF)) =
      (⌊t * sps⌋ : ℚ) + (Int.fract (t * sps) + (1 - QUANTIZE_CUTOFF)) := by
    have := Int.floor_add_fract (t * sps)
    linarith
  refine ⟨hfloor, ?_, ?_, ?_, ?_, ?_⟩
  · intro hlt
    rw [hfloor, hsplit, Int.floor_int_add]
    have h0 : ⌊Int.fract (t * sps) + (1 - QUANTIZE_CUTOFF)⌋ = 0 := by
      rw [Int.floor_eq_zero_iff]
      constructor
      · have := Int.fract_nonneg (t * sps)
        rw [hcut]
        linarith
      · rw [hcut] at hlt ⊢
        linarith
    omega
  · intro hge
    rw [hfloor, hsplit, Int.floor_int_add]
    have h1 : ⌊Int.fract (t * sps) + (1 - QUANTIZE_CUTOFF)⌋ = 1 := by
      rw [Int.floor_eq_iff]
      have := Int.fract_lt_one (t * sps)
      rw [hcut] at hge ⊢
      constructor
      · push_cast
        linarith
      · push_cast
        linarith
    omega
  · intro note n' h
    simp only [quantizeNote] at h
    split at h
    case isTrue heq =>
      split at h
      · exact absurd h (by simp)
      · split at h
        · exact absurd h (by simp)
        · simp only [Except.ok.injEq] at h
          subst h
          exact ⟨rfl, Or.inr ⟨heq, by simp [heq]⟩⟩
    case isFalse heq =>
      split at h
      · exact absurd h (by simp)
      · split at h
        · exact absurd h (by simp)
        · simp only [Except.ok.injEq] at h
          subst h
          exact ⟨rfl, Or.inl rfl⟩
  · intro cc cc' h
    simp only [quantizeControlChange] at h
    split at h
    · exact absurd h (by simp)
    · split at h
      · exact absurd h (by simp)
      · simp only [Except.ok.injEq] at h
        subst h
        rfl
  · intro ta ta' h
    simp only [quantizeTextAnnot] at h
    split at h
    · exact absurd h (by simp)
    · split at h
      · exact absurd h (by simp)
      · simp only [Except.ok.injEq] at h
        subst h
        rfl

/-- Witness for C5's amended theorem at `t = 7/16`, `sps = 4`
(`t * sps = 7/4`, offset `3/4` at the cutoff, step `2 = ⌊7/4⌋ + 1`). -/
theorem quantize_to_step_floor_rule_witness :
    quantize_to_step (7/16) 4 QUANTIZE_CUTOFF = ⌊(7/16 : ℚ) * 4⌋ + 1 :=
  (quantize_to_step_floor_rule (7/16) 4 (by norm_num) (by norm_num)).2.2.1
    (by decide)

/-! ## C10 -/

/-- C10: `quantize_to_step` truncates toward zero (Python `int`), so its
result is negative exactly when `t * steps_per_second ≤ -5/4` under the
default cutoff `0.75`; any slightly negative time with
`-5/4 < t * steps_per_second ≤ 0` yields step `0`, and a note both of
whose snapped times fall in that window is quantized silently to steps
`[0, 1]` with no `NegativeTimeError`. -/
theorem quantize_to_step_negative_tolerance (t sps : ℚ) :
    (t * sps + (1 - QUANTIZE_CUTOFF) < 0 →
      quantize_to_step t sps QUANTIZE_CUTOFF =
        ⌈t * sps + (1 - QUANTIZE_CUTOFF)⌉) ∧
    (quantize_to_step t sps QUANTIZE_CUTOFF < 0 ↔ t * sps ≤ -(5/4)) ∧
    (-(5/4) < t * sps → t * sps ≤ 0 →
      quantize_to_step t sps QUANTIZE_CUTOFF = 0) ∧
    (∀ note : Note, sps ≠ 0 →
      -(5/4) < note.start_time * sps → note.start_time * sps ≤ 0 →
      -(5/4) < note.end_time * sps → note.end_time * sps ≤ 0 →
      ∃ n', quantizeNote sps note = .ok n' ∧
        n'.quantized_start_step = 0 ∧ n'.quantized_end_step = 1) := by
  have hcut : (1 : ℚ) - QUANTIZE_CUTOFF = 1/4 := by norm_num [QUANTIZE_CUTOFF]
  have key : ∀ u : ℚ, -(5/4) < u → u ≤ 0 → pyInt (u + (1 - QUANTIZE_CUTOFF)) = 0 := by
    intro u h1 h2
    rw [hcut]
    unfold pyInt
    split
    · rw [Int.floor_eq_zero_iff]
      refine ⟨by assumption, ?_⟩
      show u + 1/4 < 1
      linarith
    · rw [Int.ceil_eq_zero_iff]
      refine ⟨?_, not_le.mp (by assumption) |>.le⟩
      show (-1 : ℚ) < u + 1/4
      linarith
  have keyneg : ∀ u : ℚ, pyInt (u + (1 - QUANTIZE_CUTOFF)) < 0 ↔ u ≤ -(5/4) := by
    intro u
    rw [hcut]
    unfold pyInt
    split
    case isTrue hp =>
      constructor
      · intro h
        exfalso
        have h0 : (0 : ℤ) ≤ ⌊u + 1/4⌋ := Int.le_floor.mpr (by exact_mod_cast hp)
        omega
      · intro h
        linarith
    case isFalse hp =>
      constructor
      · intro h
        have h2 : ⌈u + 1/4⌉ ≤ -1 := by omega
        have := Int.ceil_le.mp h2
        push_cast at this
        linarith
      · intro h
        have : u + 1/4 ≤ ((-1 : ℤ) : ℚ) := by push_cast; linarith
        have := Int.ceil_le.mpr this
        omega
  refine ⟨?_, ?_, ?_, ?_⟩
  · intro h
    exact pyInt_of_neg h
  · exact keyneg (t * sps)
  · intro h1 h2
    exact key (t * sps) h1 h2
  · intro note hsps h1 h2 h3 h4
    have hs : quantize_to_step note.start_time sps QUANTIZE_CUTOFF = 0 :=
      key (note.start_time * sps) h1 h2
    have he : quantize_to_step note.end_time sps QUANTIZE_CUTOFF = 0 :=
      key (note.end_time * sps) h3 h4
    refine ⟨{ note with
              quantized_start_step := 0
              quantized_end_step := 1
              start_time := ((0 : ℤ) : ℚ) / sps
              end_time := ((1 : ℤ) : ℚ) / sps }, ?_, rfl, rfl⟩
    unfold quantizeNote
    rw [hs, he]
    simp [hsps]

/-- Witness for C10 at `t = -9/8`, `sps = 1` (inside the tolerated window)
and `t = -3/2`, `sps = 1` (outside it). -/
theorem quantize_to_step_negative_tolerance_witness :
    quantize_to_step (-(9/8)) 1 QUANTIZE_CUTOFF = 0 ∧
      quantize_to_step (-(3/2)) 1 QUANTIZE_CUTOFF < 0 :=
  ⟨(quantize_to_step_negative_tolerance (-(9/8)) 1).2.2.1 (by norm_num)
      (by norm_num),
    ((quantize_to_step_negative_tolerance (-(3/2)) 1).2.1).mpr (by norm_num)⟩

/-! ## C6 -/

/-- The ok-case of the per-note quantization body: with a positive
resolution and `start_time <= end_time`, the snapped end step is at least
the snapped start step (the snapping map is monotone), and the widening
branch makes the inequality strict. -/
theorem quantizeNote_min_duration {sps : ℚ} (hs : 0 < sps) {n n' : Note}
    (hne : n.start_time ≤ n.end_time) (h : quantizeNote sps n = .ok n') :
    n'.quantized_start_step < n'.quantized_end_step := by
  have hmono : quantize_to_step n.start_time sps QUANTIZE_CUTOFF ≤
      quantize_to_step n.end_time sps QUANTIZE_CUTOFF := by
    unfold quantize_to_step
    apply pyInt_mono
    have := mul_le_mul_of_nonneg_right hne (le_of_lt hs)
    linarith
  simp only [quantizeNote] at h
  split at h
  case isTrue heq =>
    split at h
    · exact absurd h (by simp)
    split at h
    · exact absurd h (by simp)
    simp only [Except.ok.injEq] at h
    subst h
    simp only
    omega
  case isFalse heq =>
    split at h
    · exact absurd h (by simp)
    split at h
    · exact absurd h (by simp)
    simp only [Except.ok.injEq] at h
    subst h
    simp only
    omega

theorem quantizeNoteList_mem {sps : ℚ} {l l' : List Note}
    (h : quantizeNoteList sps l = .ok l') :
    ∀ n' ∈ l', ∃ n ∈ l, quantizeNote sps n = .ok n' := by
  induction l generalizing l' with
  | nil =>
    simp only [quantizeNoteList, Except.ok.injEq] at h
    subst h
    simp
  | cons a rest ih =>
    simp only [quantizeNoteList] at h
    cases ha : quantizeNote sps a with
    | error e =>
      rw [ha] at h
      exact Except.noConfusion h
    | ok a' =>
      rw [ha] at h
      cases hr : quantizeNoteList sps rest with
      | error e =>
        rw [hr] at h
        exact Except.noConfusion h
      | ok rest' =>
        rw [hr] at h
        have h2 : a' :: rest' = l' := Except.ok.inj h
        subst h2
        intro n' hmem
        rcases List.mem_cons.mp hmem with h1 | h1
        · exact ⟨a, List.mem_cons_self a rest, by rw [← h1] at ha; exact ha⟩
        · obtain ⟨n, hn, hok⟩ := ih hr n' h1
          exact ⟨n, List.mem_cons_of_mem a hn, hok⟩

theorem _quantize_notes_ok {ns : NoteSequence} {sps : ℚ} {out : NoteSequence}
    (h : _quantize_notes ns sps = .ok out) :
    ∃ notes, quantizeNoteList sps ns.notes = .ok notes ∧ out.notes = notes := by
  simp only [_quantize_notes] at h
  cases h1 : quantizeNoteList sps ns.notes with
  | error e =>
    rw [h1] at h
    exact Except.noConfusion h
  | ok notes =>
    rw [h1] at h
    cases h2 : quantizeControlChangeList sps ns.control_changes with
    | error e =>
      rw [h2] at h
      exact Except.noConfusion h
    | ok ccs =>
      rw [h2] at h
      cases h3 : quantizeTextAnnotList sps ns.text_annots with
      | error e =>
        rw [h3] at h
        exact Except.noConfusion h
      | ok tas =>
        rw [h3] at h
        have h4 := Except.ok.inj h
        exact ⟨notes, rfl, by rw [← h4]⟩

theorem resolveTempos_qpm {l : List Tempo} {t : Tempo}
    (h : resolveTempos l = .ok t) (hq : ∀ tp ∈ l, 0 < tp.qpm) : 0 < t.qpm := by
  cases l with
  | nil =>
    simp only [resolveTempos, Except.ok.injEq] at h
    subst h
    norm_num [DEFAULT_QUARTERS_PER_MINUTE]
  | cons t0 rest =>
    rcases hs : sortByKey (fun tp => tp.time) (t0 :: rest) with _ | ⟨s0, srest⟩
    · simp only [resolveTempos, hs, Except.ok.injEq] at h
      subst h
      norm_num [DEFAULT_QUARTERS_PER_MINUTE]
    · simp only [resolveTempos, hs] at h
      split at h
      · exact Except.noConfusion h
      split at h
      · exact Except.noConfusion h
      simp only [Except.ok.injEq] at h
      subst h
      exact hq t0 (List.mem_cons_self t0 rest)

theorem quantize_note_sequence_ok {ns : NoteSequence} {spq : ℤ} {out : NoteSequence}
    (h : quantize_note_sequence ns spq = .ok out) :
    ∃ tempo, resolveTempos ns.tempos = .ok tempo ∧
      ∃ notes, quantizeNoteList
          (steps_per_quarter_to_steps_per_second spq tempo.qpm) ns.notes =
          .ok notes ∧ out.notes = notes := by
  simp only [quantize_note_sequence] at h
  cases hts : resolveTimeSignatures ns.time_signatures with
  | error e =>
    rw [hts] at h
    exact Except.noConfusion h
  | ok ts =>
    rw [hts] at h
    have h1 : (if ¬ _is_power_of_2 ts.denominator then
        (Except.error PyError.badTimeSignature : Except PyError NoteSequence)
      else if ts.numerator = 0 then .error .badTimeSignature
      else do
        let tempo ← resolveTempos ns.tempos
        _quantize_notes
          { ns with
            quantization_info :=
              { ns.quantization_info with steps_per_quarter := spq }
            time_signatures := [ts]
            tempos := [tempo]
            total_quantized_steps :=
              quantize_to_step ns.total_time
                (steps_per_quarter_to_steps_per_second spq tempo.qpm)
                QUANTIZE_CUTOFF }
          (steps_per_quarter_to_steps_per_second spq tempo.qpm)) = .ok out := h
    split at h1
    · exact Except.noConfusion h1
    split at h1
    · exact Except.noConfusion h1
    cases htp : resolveTempos ns.tempos with
    | error e =>
      rw [htp] at h1
      exact Except.noConfusion h1
    | ok tempo =>
      rw [htp] at h1
      obtain ⟨notes, hlist, hnotes⟩ := _quantize_notes_ok h1
      exact ⟨tempo, rfl, notes, hlist, hnotes⟩

/-- C6: for every sequence whose notes all satisfy
`start_time <= end_time`, any successful run of `quantize_note_sequence`
(positive steps-per-quarter, positive tempos) or
`quantize_note_sequence_absolute` (positive steps-per-second) yields
`quantized_end_step > quantized_start_step` for every output note: a note
whose snapped end equals its snapped start is widened by one step. -/
theorem quantized_notes_min_one_step (ns : NoteSequence)
    (hse : ∀ n ∈ ns.notes, n.start_time ≤ n.end_time) :
    (∀ spq : ℤ, 0 < spq → (∀ tp ∈ ns.tempos, 0 < tp.qpm) →
      ∀ out, quantize_note_sequence ns spq = .ok out →
      ∀ n ∈ out.notes, n.quantized_start_step < n.quantized_end_step) ∧
    (∀ sps : ℚ, 0 < sps →
      ∀ out, quantize_note_sequence_absolute ns sps = .ok out →
      ∀ n ∈ out.notes, n.quantized_start_step < n.quantized_end_step) := by
  constructor
  · intro spq hspq hq out h n' hmem
    obtain ⟨tempo, htempo, notes, hlist, hnotes⟩ := quantize_note_sequence_ok h
    have hqpm := resolveTempos_qpm htempo hq
    have hsps : 0 < steps_per_quarter_to_steps_per_second spq tempo.qpm := by
      unfold steps_per_quarter_to_steps_per_second
      apply div_pos
      · exact mul_pos (by exact_mod_cast hspq) hqpm
      · norm_num
    rw [hnotes] at hmem
    obtain ⟨n, hn, hok⟩ := quantizeNoteList_mem hlist n' hmem
    exact quantizeNote_min_duration hsps (hse n hn) hok
  · intro sps hsps out h n' hmem
    unfold quantize_note_sequence_absolute at h
    obtain ⟨notes, hlist, hnotes⟩ := _quantize_notes_ok h
    rw [hnotes] at hmem
    obtain ⟨n, hn, hok⟩ := quantizeNoteList_mem hlist n' hmem
    exact quantizeNote_min_duration hsps (hse n hn) hok

/-- Unquantized one-note sequence used to witness C6. -/
def c6seq : NoteSequence :=
  { emptySeq with
    total_time := 1
    notes := [{ pitch := 60, velocity := 100, instrument := 0, program := 0,
                is_drum := false, start_time := 0, end_time := 1,
                quantized_start_step := 0, quantized_end_step := 0 }] }

def c6outNote : Note :=
  { pitch := 60, velocity := 100, instrument := 0, program := 0,
    is_drum := false, start_time := 0, end_time := 1,
    quantized_start_step := 0, quantized_end_step := 8 }

def c6out : NoteSequence :=
  { c6seq with
    quantization_info := { steps_per_quarter := 4, steps_per_second := 0 }
    time_signatures := [⟨0, 4, 4⟩]
    tempos := [⟨0, 120⟩]
    total_quantized_steps := 8
    notes := [c6outNote] }

theorem quantized_notes_min_one_step_witness :
    quantize_note_sequence c6seq 4 = .ok c6out ∧
      c6outNote.quantized_start_step < c6outNote.quantized_end_step := by
  have h : quantize_note_sequence c6seq 4 = .ok c6out := by decide
  exact ⟨h, (quantized_notes_min_one_step c6seq (by decide)).1 4 (by decide)
    (by decide) c6out h c6outNote (by decide)⟩

/-! ## C7 -/

/-- A relative-quantized sequence (16 steps per bar) with note A on steps
`[0, 4]` and note B on steps `[4, 20]`: B starts exactly when A ends, so
there is no silence between them, but B's end step is 16 steps past A's
end step. -/
def c7seq : NoteSequence :=
  { emptySeq with
    total_time := 5/2
    total_quantized_steps := 20
    quantization_info := { steps_per_quarter := 4, steps_per_second := 0 }
    time_signatures := [⟨0, 4, 4⟩]
    tempos := [⟨0, 120⟩]
    notes := [mkNote 60 0 (1/2) 0 4, mkNote 62 (1/2) (5/2) 4 20] }

/-- C7: with `gap_bars = 1` (16 steps) the walk terminates before adding
note B even though the silence gap between A's end (step 4) and B's start
(step 4) is zero: the code's `off_distance` is
`note_end_step - last_note.quantized_end_step` (20 - 4 = 16 ≥ 16), i.e. it
measures to the current note's *end* step, not its start step as the claim
states. The extracted melody contains only note A (steps `[0, 4]`). -/
theorem extract_melody_gap_uses_end_distance :
    (extract_melody_from_note_sequence c7seq 0 PIANO_MIN_MIDI_PITCH
        PIANO_MAX_MIDI_PITCH 0 1 false true MEL_PROGRAMS).map
      (fun o => o.map (fun m =>
        m.notes.map (fun n => (n.quantized_start_step, n.quantized_end_step)))) =
      .ok (some [(0, 4)]) := by
  decide

/-! ## C8 -/

/-- An unquantized sequence of declared total time 100 whose only events
are a note in `[0, 1]` and a sustain-on control change at time 0 that is
never released. -/
def c8seq : NoteSequence :=
  { emptySeq with
    total_time := 100
    notes := [mkNote 60 0 1 0 0]
    control_changes := [{ time := 0, control_number := 64, control_value := 100,
                          instrument := 0, program := 0, is_drum := false,
                          quantized_step := 0 }] }

/-- C8 counterexample: the final block *assigns* `total_time = time`
instead of extending it, so on `c8seq` (input `total_time = 100`, last
processed event at time 1, with the note still held open by the pedal) the
output's `total_time` is 1 — smaller than the input's 100, refuting
"total_time is never smaller than the input's total_time". -/
theorem apply_sustain_shrinks_total_time :
    (apply_sustain_control_changes c8seq 64).map (fun s => s.total_time) =
        .ok 1 ∧
      c8seq.total_time = 100 := by
  constructor
  · decide
  · decide

theorem setNoteEnd_length (notes : List Note) (j : ℕ) (t : ℚ) :
    (setNoteEnd notes j t).length = notes.length := by
  unfold setNoteEnd
  split <;> simp

theorem noteGet_setNoteEnd_ne {i j : ℕ} (hne : i ≠ j) (notes : List Note) (t : ℚ) :
    noteGet (setNoteEnd notes j t) i = noteGet notes i := by
  unfold setNoteEnd noteGet
  split
  · simp [List.getD, List.getElem?_set_ne (Ne.symm hne)]
  · rfl

theorem noteGet_setNoteEnd_self {i : ℕ} {notes : List Note}
    (h : i < notes.length) (t : ℚ) :
    noteGet (setNoteEnd notes i t) i = { noteGet notes i with end_time := t } := by
  unfold setNoteEnd noteGet
  rcases hg : notes.get? i with _ | n
  · have := List.get?_eq_none.mp hg
    omega
  · have hgd : notes.getD i default = n := by
      simp [List.getD, ← List.get?_eq_getElem?, hg]
    have hset : (notes.set i { n with end_time := t }).getD i default =
        { n with end_time := t } := by
      simp [List.getD, List.getElem?_set_self h]
    rw [hset, hgd]

theorem foldl_setNoteEnd_of_not_mem {i : ℕ} (t : ℚ) :
    ∀ (ids : List ℕ) (notes : List Note), i ∉ ids →
      noteGet (ids.foldl (fun a j => setNoteEnd a j t) notes) i =
        noteGet notes i := by
  intro ids
  induction ids with
  | nil =>
    intro notes _
    rfl
  | cons j rest ih =>
    intro notes hmem
    rw [List.mem_cons, not_or] at hmem
    rw [List.foldl_cons, ih _ hmem.2]
    exact noteGet_setNoteEnd_ne hmem.1 notes t

theorem foldl_setNoteEnd_mem {i : ℕ} (t : ℚ) :
    ∀ (ids : List ℕ) (notes : List Note), i ∈ ids → i < notes.length →
      (noteGet (ids.foldl (fun a j => setNoteEnd a j t) notes) i).end_time = t := by
  intro ids
  induction ids with
  | nil =>
    intro notes hmem _
    exact absurd hmem (List.not_mem_nil i)
  | cons j rest ih =>
    intro notes hmem hlen
    rw [List.foldl_cons]
    by_cases hr : i ∈ rest
    · exact ih _ hr (by rw [setNoteEnd_length]; exact hlen)
    · have hij : i = j := by
        rcases List.mem_cons.mp hmem with h | h
        · exact h
        · exact absurd h hr
      subst hij
      rw [foldl_setNoteEnd_of_not_mem t rest _ hr, noteGet_setNoteEnd_self hlen t]

/-- C8 (amended): for every unquantized input whose event walk reaches
state `st`, the result is `finalizeSustain ns st`; every note still
tracked as active is closed with `end_time` equal to the last processed
event time `st.time`; `total_time` is *assigned* that time when at least
one note is still active (so it can shrink below the input's, as the
counterexample shows) and is left at its walk value otherwise. -/
theorem apply_sustain_final_close (ns : NoteSequence) (scn : ℤ)
    (hq : is_quantized_sequence ns = false) (st : SustainState)
    (hw : sustainWalk ns scn = .ok st) :
    apply_sustain_control_changes ns scn = .ok (finalizeSustain ns st) ∧
    (sustainActiveIds st ≠ [] →
      (finalizeSustain ns st).total_time = st.time ∧
      ∀ i ∈ sustainActiveIds st, i < st.notes.length →
        (noteGet ((sustainActiveIds st).foldl
            (fun notes j => setNoteEnd notes j st.time) st.notes) i).end_time =
          st.time) ∧
    (sustainActiveIds st = [] →
      (finalizeSustain ns st).total_time = st.total_time) := by
  refine ⟨?_, ?_, ?_⟩
  · unfold apply_sustain_control_changes
    rw [hq, hw]
    rfl
  · intro hne
    constructor
    · simp [finalizeSustain, List.isEmpty_iff, hne]
    · intro i hmem hlen
      exact foldl_setNoteEnd_mem st.time (sustainActiveIds st) st.notes hmem hlen
  · intro hnil
    simp [finalizeSustain, hnil]

/-- The walk state `sustainWalk` reaches on `c8seq`: the note still
active, sustain on, last processed event at time 1. -/
def c8walkState : SustainState :=
  { notes := [mkNote 60 0 1 0 0], removed := [], active := [(0, [0])],
    sus := [(0, true)], total_time := 100, time := 1 }

/-- Witness for C8's amended theorem on `c8seq`: the output's
`total_time` is assigned the last processed event time 1. -/
theorem apply_sustain_final_close_witness :
    apply_sustain_control_changes c8seq 64 =
        .ok (finalizeSustain c8seq c8walkState) ∧
      (finalizeSustain c8seq c8walkState).total_time = c8walkState.time := by
  have h := apply_sustain_final_close c8seq 64 (by decide) c8walkState (by decide)
  exact ⟨h.1, (h.2.1 (by decide)).1⟩

/-! ## C9 -/

/-- An unquantized sequence with no sustain control changes whose single
note has `end_time < start_time` (start 5, end 1). -/
def c9seq : NoteSequence :=
  { emptySeq with total_time := 5, notes := [mkNote 60 5 1 0 0] }

/-- C9 counterexample: on a sustain-free sequence containing a note with
`end_time < start_time`, `apply_sustain_control_changes` is not the
identity: the note-off event sorts before the note-on, the note stays in
the active list to the end of the stream, and the final block rewrites its
end time to the last processed event time (5 instead of 1). -/
theorem apply_sustain_not_identity_on_inverted_note :
    (apply_sustain_control_changes c9seq 64).map
        (fun s => s.notes.map (fun n => n.end_time)) = .ok [5] ∧
      c9seq.notes.map (fun n => n.end_time) = [1] := by
  constructor
  · decide
  · decide

end ResolvMir

namespace ResolvMir

theorem insertSorted_perm {α : Type} (le : α → α → Bool) (x : α) :
    ∀ l : List α, (insertSorted le x l).Perm (x :: l) := by
  intro l
  induction l with
  | nil => rfl
  | cons y ys ih =>
    unfold insertSorted
    split
    · exact List.Perm.trans (List.Perm.cons y ih) (List.Perm.swap x y ys)
    · exact List.Perm.refl _

theorem stableSort_perm {α : Type} (le : α → α → Bool) (l : List α) :
    (stableSort le l).Perm l := by
  suffices h : ∀ (l acc : List α),
      (l.foldl (fun acc x => insertSorted le x acc) acc).Perm (acc ++ l) by
    simpa using h l []
  intro l
  induction l with
  | nil => simp
  | cons x xs ih =>
    intro acc
    rw [List.foldl_cons]
    exact List.Perm.trans (ih _)
      (List.Perm.trans ((insertSorted_perm le x acc).append_right xs)
        (List.perm_middle).symm)

theorem mem_stableSort {α : Type} (le : α → α → Bool) (l : List α) (a : α) :
    a ∈ stableSort le l ↔ a ∈ l :=
  (stableSort_perm le l).mem_iff

theorem mem_insertSorted {α : Type} (le : α → α → Bool) (x : α) (l : List α)
    (a : α) : a ∈ insertSorted le x l ↔ a = x ∨ a ∈ l := by
  rw [(insertSorted_perm le x l).mem_iff, List.mem_cons]

theorem insertSorted_pairwise {α : Type} {le : α → α → Bool}
    (htotal : ∀ a b, le a b = true ∨ le b a = true)
    (htrans : ∀ a b c, le a b = true → le b c = true → le a c = true) (x : α) :
    ∀ l : List α, l.Pairwise (fun a b => le a b = true) →
      (insertSorted le x l).Pairwise (fun a b => le a b = true) := by
  intro l
  induction l with
  | nil =>
    intro _
    simp [insertSorted]
  | cons y ys ih =>
    intro h
    rw [List.pairwise_cons] at h
    unfold insertSorted
    split
    case isTrue hyx =>
      rw [List.pairwise_cons]
      constructor
      · intro a ha
        rcases (mem_insertSorted le x ys a).mp ha with rfl | ha
        · exact hyx
        · exact h.1 a ha
      · exact ih h.2
    case isFalse hyx =>
      have hxy : le x y = true := by
        rcases htotal x y with h1 | h1
        · exact h1
        · exact absurd h1 hyx
      rw [List.pairwise_cons]
      constructor
      · intro a ha
        rcases List.mem_cons.mp ha with rfl | ha
        · exact hxy
        · exact htrans x y a hxy (h.1 a ha)
      · rw [List.pairwise_cons]
        exact ⟨h.1, h.2⟩

theorem stableSort_pairwise {α : Type} {le : α → α → Bool}
    (htotal : ∀ a b, le a b = true ∨ le b a = true)
    (htrans : ∀ a b c, le a b = true → le b c = true → le a c = true)
    (l : List α) :
    (stableSort le l).Pairwise (fun a b => le a b = true) := by
  suffices h : ∀ (l acc : List α),
      acc.Pairwise (fun a b => le a b = true) →
      (l.foldl (fun acc x => insertSorted le x acc) acc).Pairwise
        (fun a b => le a b = true) by
    exact h l [] (List.Pairwise.nil)
  intro l
  induction l with
  | nil =>
    intro acc h
    simpa using h
  | cons x xs ih =>
    intro acc h
    rw [List.foldl_cons]
    exact ih _ (insertSorted_pairwise htotal htrans x acc h)

end ResolvMir

namespace ResolvMir

theorem activeGet_nil (q : ℤ) : activeGet [] q = [] := rfl

theorem activeGet_cons (k : ℤ) (v : List ℕ) (rest : List (ℤ × List ℕ)) (q : ℤ) :
    activeGet ((k, v) :: rest) q = if q = k then v else activeGet rest q := by
  unfold activeGet
  rw [List.lookup]
  by_cases h : q = k
  · simp [h]
  · rw [beq_eq_false_iff_ne.mpr h, if_neg h]

theorem activeGet_map_replace_self (q : ℤ) (l : List ℕ) :
    ∀ a : List (ℤ × List ℕ), (a.any fun p => decide (p.1 = q)) = true →
      activeGet (a.map fun p => if p.1 = q then (q, l) else p) q = l := by
  intro a
  induction a with
  | nil => simp
  | cons p rest ih =>
    obtain ⟨k, v⟩ := p
    intro hany
    by_cases hk : k = q
    · simp only [List.map_cons]
      rw [show (if (k, v).1 = q then (q, l) else (k, v)) = (q, l) from by simp [hk]]
      rw [activeGet_cons, if_pos rfl]
    · simp only [List.map_cons]
      rw [show (if (k, v).1 = q then (q, l) else (k, v)) = (k, v) from by simp [hk]]
      rw [activeGet_cons, if_neg (fun h => hk h.symm)]
      apply ih
      simpa [List.any_cons, hk] using hany

theorem activeGet_map_replace_ne (q : ℤ) (l : List ℕ) {q' : ℤ} (h : q' ≠ q) :
    ∀ a : List (ℤ × List ℕ),
      activeGet (a.map fun p => if p.1 = q then (q, l) else p) q' =
        activeGet a q' := by
  intro a
  induction a with
  | nil => rfl
  | cons p rest ih =>
    obtain ⟨k, v⟩ := p
    by_cases hk : k = q
    · simp only [List.map_cons]
      rw [show (if (k, v).1 = q then (q, l) else (k, v)) = (q, l) from by simp [hk]]
      rw [activeGet_cons, if_neg h, activeGet_cons, if_neg (by rw [hk]; exact h)]
      exact ih
    · simp only [List.map_cons]
      rw [show (if (k, v).1 = q then (q, l) else (k, v)) = (k, v) from by simp [hk]]
      rw [activeGet_cons, activeGet_cons]
      split
      · rfl
      · exact ih

theorem activeGet_append_single_self (q : ℤ) (l : List ℕ) :
    ∀ a : List (ℤ × List ℕ), (a.any fun p => decide (p.1 = q)) = false →
      activeGet (a ++ [(q, l)]) q = l := by
  intro a
  induction a with
  | nil =>
    intro _
    rw [List.nil_append, activeGet_cons]
    simp
  | cons p rest ih =>
    obtain ⟨k, v⟩ := p
    intro hany
    rw [List.any_eq_false] at hany
    have hk : ¬(k = q) := by
      have := hany (k, v) (List.mem_cons_self _ _)
      simpa using this
    rw [List.cons_append, activeGet_cons, if_neg (fun h => hk h.symm)]
    apply ih
    rw [List.any_eq_false]
    intro x hx
    exact hany x (List.mem_cons_of_mem _ hx)

theorem activeGet_append_single_ne (q : ℤ) (l : List ℕ) {q' : ℤ} (h : q' ≠ q) :
    ∀ a : List (ℤ × List ℕ), activeGet (a ++ [(q, l)]) q' = activeGet a q' := by
  intro a
  induction a with
  | nil =>
    rw [List.nil_append, activeGet_cons, if_neg h]
  | cons p rest ih =>
    obtain ⟨k, v⟩ := p
    rw [List.cons_append, activeGet_cons, activeGet_cons]
    split
    · rfl
    · exact ih

theorem activeGet_activeSet_self (a : List (ℤ × List ℕ)) (q : ℤ) (l : List ℕ) :
    activeGet (activeSet a q l) q = l := by
  unfold activeSet
  split
  case isTrue hany => exact activeGet_map_replace_self q l a hany
  case isFalse hany =>
    exact activeGet_append_single_self q l a (Bool.not_eq_true _ ▸ hany)

theorem activeGet_activeSet_ne (a : List (ℤ × List ℕ)) {q q' : ℤ}
    (h : q' ≠ q) (l : List ℕ) :
    activeGet (activeSet a q l) q' = activeGet a q' := by
  unfold activeSet
  split
  · exact activeGet_map_replace_ne q l h a
  · exact activeGet_append_single_ne q l h a

theorem activeSet_keys_nodup {a : List (ℤ × List ℕ)} (q : ℤ) (l : List ℕ)
    (h : (a.map Prod.fst).Nodup) :
    ((activeSet a q l).map Prod.fst).Nodup := by
  unfold activeSet
  split
  case isTrue hany =>
    have hkeys : ((a.map fun p => if p.1 = q then (q, l) else p).map Prod.fst) =
        a.map Prod.fst := by
      rw [List.map_map]
      apply List.map_congr_left
      intro p _
      by_cases hp : p.1 = q
      · simp [hp]
      · simp [hp]
    rw [hkeys]
    exact h
  case isFalse hany =>
    rw [List.map_append]
    simp only [List.map_cons, List.map_nil]
    rw [List.nodup_append]
    refine ⟨h, List.nodup_singleton q, ?_⟩
    intro k hk
    simp only [List.mem_singleton]
    intro hkq
    subst hkq
    rcases List.mem_map.mp hk with ⟨p, hp, hfst⟩
    exact hany (List.any_eq_true.mpr ⟨p, hp, by simp [hfst]⟩)

theorem activeGet_of_mem_nodup {a : List (ℤ × List ℕ)}
    (hnd : (a.map Prod.fst).Nodup) {k : ℤ} {v : List ℕ} (hmem : (k, v) ∈ a) :
    activeGet a k = v := by
  induction a with
  | nil => exact absurd hmem (List.not_mem_nil _)
  | cons p rest ih =>
    obtain ⟨k0, v0⟩ := p
    rw [List.map_cons, List.nodup_cons] at hnd
    rcases List.mem_cons.mp hmem with h | h
    · cases h
      rw [activeGet_cons, if_pos rfl]
    · rw [activeGet_cons, if_neg ?_]
      · exact ih hnd.2 h
      · intro hkk
        subst hkk
        exact hnd.1 (List.mem_map.mpr ⟨(k, v), h, rfl⟩)

theorem removeFirstEq_subset (notes : List Note) (v : Note) :
    ∀ ids : List ℕ, ∀ x ∈ removeFirstEq notes ids v, x ∈ ids := by
  intro ids
  induction ids with
  | nil =>
    intro x hx
    exact absurd hx (List.not_mem_nil _)
  | cons i rest ih =>
    intro x hx
    unfold removeFirstEq at hx
    split at hx
    · exact List.mem_cons_of_mem _ hx
    · rcases List.mem_cons.mp hx with rfl | hx
      · exact List.mem_cons_self _ _
      · exact List.mem_cons_of_mem _ (ih x hx)

theorem removeFirstEq_countP_self (notes : List Note) (v : Note) :
    ∀ ids : List ℕ,
      1 ≤ ids.countP (fun i => decide (noteGet notes i = v)) →
      (removeFirstEq notes ids v).countP (fun i => decide (noteGet notes i = v)) =
        ids.countP (fun i => decide (noteGet notes i = v)) - 1 := by
  intro ids
  induction ids with
  | nil => simp
  | cons i rest ih =>
    intro hpos
    unfold removeFirstEq
    split
    case isTrue hv =>
      rw [List.countP_cons_of_pos _ _ (by simpa using hv)]
      omega
    case isFalse hv =>
      rw [List.countP_cons_of_neg _ _ (by simpa using hv),
        List.countP_cons_of_neg _ _ (by simpa using hv)]
      apply ih
      have := hpos
      rw [List.countP_cons_of_neg _ _ (by simpa using hv)] at this
      exact this

theorem removeFirstEq_countP_ne (notes : List Note) {v w : Note} (hw : w ≠ v) :
    ∀ ids : List ℕ,
      (removeFirstEq notes ids v).countP (fun i => decide (noteGet notes i = w)) =
        ids.countP (fun i => decide (noteGet notes i = w)) := by
  intro ids
  induction ids with
  | nil => rfl
  | cons i rest ih =>
    unfold removeFirstEq
    split
    case isTrue hv =>
      have hne : ¬(noteGet notes i = w) := by
        rw [hv]
        exact fun h => hw h.symm
      rw [List.countP_cons_of_neg _ _ (by simpa using hne)]
    case isFalse hv =>
      rw [List.countP_cons, List.countP_cons, ih]

end ResolvMir

namespace ResolvMir

/-- Does event `e` switch on the note value `v` (kind note-on, note object
currently equal to `v`)? -/
def evtOn (base : List Note) (v : Note) (e : SustainEvent) : Bool :=
  decide (e.kind = 2) && decide (noteGet base e.noteId = v)

/-- Does event `e` switch off the note value `v`? -/
def evtOff (base : List Note) (v : Note) (e : SustainEvent) : Bool :=
  decide (e.kind = 3) && decide (noteGet base e.noteId = v)

/-- Number of note-on events for value `v` in a stream. -/
def onCount (base : List Note) (v : Note) (l : List SustainEvent) : ℕ :=
  l.countP (evtOn base v)

/-- Number of note-off events for value `v` in a stream. -/
def offCount (base : List Note) (v : Note) (l : List SustainEvent) : ℕ :=
  l.countP (evtOff base v)

/-- A note event of the merged stream: a valid non-drum note index whose
event time and instrument come from the note object. -/
def GoodEvt (base : List Note) (e : SustainEvent) : Prop :=
  e.noteId < base.length ∧ (noteGet base e.noteId).is_drum = false ∧
  e.instrument = (noteGet base e.noteId).instrument ∧
  ((e.kind = 2 ∧ e.time = (noteGet base e.noteId).start_time) ∨
   (e.kind = 3 ∧ e.time = (noteGet base e.noteId).end_time))

theorem noteGet_of_mem_enum {base : List Note} {i : ℕ} {n : Note}
    (h : (i, n) ∈ base.enum) : i < base.length ∧ noteGet base i = n := by
  obtain ⟨hlen, hn⟩ := List.mem_enum h
  refine ⟨hlen, ?_⟩
  unfold noteGet
  rw [List.getD_eq_getElem?_getD, List.getElem?_eq_getElem hlen]
  simp [hn]

theorem sustainEvents_no_cc {ns : NoteSequence} {scn : ℤ}
    (hcc : ∀ cc ∈ ns.control_changes, cc.control_number ≠ scn) :
    ns.control_changes.filterMap
      (fun cc =>
        if cc.control_number ≠ scn then none
        else if cc.control_value ≥ 64 then
          some (⟨cc.time, 0, 0, cc.instrument⟩ : SustainEvent)
        else some ⟨cc.time, 1, 0, cc.instrument⟩) = [] := by
  rw [List.filterMap_eq_nil_iff]
  intro cc hmem
  rw [if_pos (hcc cc hmem)]

theorem sustainEvents_good {ns : NoteSequence} {scn : ℤ}
    (hcc : ∀ cc ∈ ns.control_changes, cc.control_number ≠ scn) :
    ∀ e ∈ sustainEvents ns scn, GoodEvt ns.notes e := by
  intro e hmem
  unfold sustainEvents at hmem
  rw [sustainEvents_no_cc hcc, List.append_nil] at hmem
  rcases List.mem_append.mp hmem with h | h
  · rcases List.mem_filterMap.mp h with ⟨p, hp, heq⟩
    obtain ⟨i, n⟩ := p
    split at heq
    case isTrue => exact absurd heq (by simp)
    case isFalse hd =>
      obtain ⟨hlen, hget⟩ := noteGet_of_mem_enum hp
      cases Option.some.inj heq
      exact ⟨hlen, by rw [hget]; simpa using hd, by rw [hget],
        Or.inl ⟨rfl, by rw [hget]⟩⟩
  · rcases List.mem_filterMap.mp h with ⟨p, hp, heq⟩
    obtain ⟨i, n⟩ := p
    split at heq
    case isTrue => exact absurd heq (by simp)
    case isFalse hd =>
      obtain ⟨hlen, hget⟩ := noteGet_of_mem_enum hp
      cases Option.some.inj heq
      exact ⟨hlen, by rw [hget]; simpa using hd, by rw [hget],
        Or.inr ⟨rfl, by rw [hget]⟩⟩

theorem countP_enum_on_off (base : List Note) (v : Note) :
    ∀ l : List (ℕ × Note), (∀ p ∈ l, noteGet base p.1 = p.2) →
      (l.filterMap (fun p => if p.2.is_drum then none
          else some (⟨p.2.start_time, 2, p.1, p.2.instrument⟩ : SustainEvent))).countP
          (evtOn base v) =
        (l.filterMap (fun p => if p.2.is_drum then none
          else some (⟨p.2.end_time, 3, p.1, p.2.instrument⟩ : SustainEvent))).countP
          (evtOff base v) := by
  intro l
  induction l with
  | nil =>
    intro _
    rfl
  | cons p rest ih =>
    intro hl
    obtain ⟨i, n⟩ := p
    have hget : noteGet base i = n := hl (i, n) (List.mem_cons_self _ _)
    have hrest := fun p hp => hl p (List.mem_cons_of_mem _ hp)
    by_cases hd : n.is_drum
    · simp only [List.filterMap_cons, hd]
      exact ih hrest
    · simp only [List.filterMap_cons, hd]
      rw [if_neg (by simp [hd]), if_neg (by simp [hd])]
      rw [List.countP_cons, List.countP_cons, ih hrest]
      have hOn : evtOn base v ⟨n.start_time, 2, i, n.instrument⟩ =
          decide (n = v) := by
        simp [evtOn, hget]
      have hOff : evtOff base v ⟨n.end_time, 3, i, n.instrument⟩ =
          decide (n = v) := by
        simp [evtOff, hget]
      rw [hOn, hOff]

theorem onCount_eq_offCount {ns : NoteSequence} {scn : ℤ}
    (hcc : ∀ cc ∈ ns.control_changes, cc.control_number ≠ scn) (v : Note) :
    onCount ns.notes v (sustainEvents ns scn) =
      offCount ns.notes v (sustainEvents ns scn) := by
  unfold sustainEvents onCount offCount
  rw [sustainEvents_no_cc hcc, List.append_nil, List.countP_append,
    List.countP_append]
  have hOnB : (ns.notes.enum.filterMap (fun p => if p.2.is_drum then none
      else some (⟨p.2.end_time, 3, p.1, p.2.instrument⟩ : SustainEvent))).countP
      (evtOn ns.notes v) = 0 := by
    rw [List.countP_eq_zero]
    intro e he
    rcases List.mem_filterMap.mp he with ⟨p, _, heq⟩
    split at heq
    · exact absurd heq (by simp)
    · cases Option.some.inj heq
      simp [evtOn]
  have hOffA : (ns.notes.enum.filterMap (fun p => if p.2.is_drum then none
      else some (⟨p.2.start_time, 2, p.1, p.2.instrument⟩ : SustainEvent))).countP
      (evtOff ns.notes v) = 0 := by
    rw [List.countP_eq_zero]
    intro e he
    rcases List.mem_filterMap.mp he with ⟨p, _, heq⟩
    split at heq
    · exact absurd heq (by simp)
    · cases Option.some.inj heq
      simp [evtOff]
  rw [hOnB, hOffA]
  have := countP_enum_on_off ns.notes v ns.notes.enum
    (fun p hp => (noteGet_of_mem_enum (by exact hp)).2)
  omega

theorem sustainEventLE_total :
    ∀ a b, sustainEventLE a b = true ∨ sustainEventLE b a = true := by
  intro a b
  unfold sustainEventLE
  rcases lt_trichotomy a.time b.time with h | h | h
  · left
    simp [h]
  · rcases Nat.le_total a.kind b.kind with hk | hk
    · left
      simp [h, hk]
    · right
      simp [h.symm, hk]
  · right
    simp [h]

theorem sustainEventLE_trans :
    ∀ a b c, sustainEventLE a b = true → sustainEventLE b c = true →
      sustainEventLE a c = true := by
  intro a b c hab hbc
  unfold sustainEventLE at hab hbc ⊢
  simp only [Bool.or_eq_true, Bool.and_eq_true, decide_eq_true_eq] at hab hbc ⊢
  rcases hab with h1 | ⟨h1, h1k⟩ <;> rcases hbc with h2 | ⟨h2, h2k⟩
  · exact Or.inl (lt_trans h1 h2)
  · exact Or.inl (h2 ▸ h1)
  · exact Or.inl (h1 ▸ h2)
  · exact Or.inr ⟨h1.trans h2, le_trans h1k h2k⟩

end ResolvMir

namespace ResolvMir

theorem sustainStep_on {st : SustainState} {e : SustainEvent}
    (hk : e.kind = 2) (hsus : st.sus = []) :
    sustainStep st e = .ok { st with
      time := e.time
      active := activeSet st.active e.instrument
        (activeGet st.active e.instrument ++ [e.noteId]) } := by
  unfold sustainStep
  rw [hk]
  have hfalse : susGet st.sus e.instrument = false := by
    rw [hsus]
    rfl
  norm_num [hfalse]

theorem sustainStep_off {st : SustainState} {e : SustainEvent}
    (hk : e.kind = 3) (hsus : st.sus = []) :
    sustainStep st e = .ok { st with
      time := e.time
      active := activeSet st.active e.instrument
        (removeFirstEq st.notes (activeGet st.active e.instrument)
          (noteGet st.notes e.noteId)) } := by
  unfold sustainStep
  rw [hk]
  have hfalse : susGet st.sus e.instrument = false := by
    rw [hsus]
    rfl
  norm_num [hfalse]

end ResolvMir

namespace ResolvMir

/-- Number of ids of value `v` in the active list of `v`'s instrument. -/
def cntActive (base : List Note) (active : List (ℤ × List ℕ)) (v : Note) : ℕ :=
  (activeGet active v.instrument).countP (fun i => decide (noteGet base i = v))

/-- The sustain-walk invariant for a control-change-free stream: the note
array, removal set, total time and sustain flags never change, active-list
keys stay distinct, every tracked id is a valid index filed under its
note's instrument, and per note value the active count equals processed
note-ons minus note-offs. -/
def SustainInv (ns : NoteSequence) (p : List SustainEvent) (st : SustainState) :
    Prop :=
  st.notes = ns.notes ∧ st.removed = [] ∧ st.total_time = ns.total_time ∧
  st.sus = [] ∧ (st.active.map Prod.fst).Nodup ∧
  (∀ q, ∀ i ∈ activeGet st.active q, i < ns.notes.length ∧
    (noteGet ns.notes i).instrument = q) ∧
  (∀ v : Note, offCount ns.notes v p ≤ onCount ns.notes v p ∧
    cntActive ns.notes st.active v = onCount ns.notes v p - offCount ns.notes v p)

theorem sustainWalk_inv (ns : NoteSequence) (scn : ℤ)
    (hse : ∀ n ∈ ns.notes, n.is_drum = false → n.start_time ≤ n.end_time)
    (hcc : ∀ cc ∈ ns.control_changes, cc.control_number ≠ scn) :
    ∀ (s p : List SustainEvent) (st : SustainState),
      stableSort sustainEventLE (sustainEvents ns scn) = p ++ s →
      SustainInv ns p st →
      ∃ st', s.foldlM sustainStep st = .ok st' ∧ SustainInv ns (p ++ s) st' := by
  intro s
  induction s with
  | nil =>
    intro p st hS hInv
    exact ⟨st, rfl, by rwa [List.append_nil]⟩
  | cons e s' ih =>
    intro p st hS hInv
    obtain ⟨hnotes, hrem, htot, hsus, hnd, hvalid, hcnts⟩ := hInv
    have heS : e ∈ stableSort sustainEventLE (sustainEvents ns scn) := by
      rw [hS]
      exact List.mem_append.mpr (Or.inr (List.mem_cons_self _ _))
    have hgood := sustainEvents_good hcc e
      ((mem_stableSort sustainEventLE _ e).mp heS)
    obtain ⟨hlen, hdrum, hinstr, hkind⟩ := hgood
    have hvmem : noteGet ns.notes e.noteId ∈ ns.notes := by
      unfold noteGet
      rw [List.getD_eq_getElem?_getD, List.getElem?_eq_getElem hlen]
      exact List.getElem_mem _
    rcases hkind with ⟨hk, htime⟩ | ⟨hk, htime⟩
    · -- note-on event
      have hstep := sustainStep_on hk hsus
      have hred : (e :: s').foldlM sustainStep st =
          s'.foldlM sustainStep
            { st with
              time := e.time
              active := activeSet st.active e.instrument
                (activeGet st.active e.instrument ++ [e.noteId]) } := by
        rw [List.foldlM_cons, hstep]
        rfl
      have hS' : stableSort sustainEventLE (sustainEvents ns scn) =
          (p ++ [e]) ++ s' := by
        rw [hS, List.append_assoc, List.singleton_append]
      have hInv2 : SustainInv ns (p ++ [e])
          { st with
            time := e.time
            active := activeSet st.active e.instrument
              (activeGet st.active e.instrument ++ [e.noteId]) } := by
        refine ⟨hnotes, hrem, htot, hsus, activeSet_keys_nodup _ _ hnd, ?_, ?_⟩
        · intro q i hi
          by_cases hq : q = e.instrument
          · rw [hq, activeGet_activeSet_self] at hi
            rcases List.mem_append.mp hi with hi | hi
            · refine ⟨(hvalid _ i hi).1, ?_⟩
              rw [hq]
              exact (hvalid _ i hi).2
            · rcases List.mem_singleton.mp hi with rfl
              refine ⟨hlen, ?_⟩
              rw [hq]
              exact hinstr.symm
          · rw [activeGet_activeSet_ne _ hq] at hi
            exact hvalid q i hi
        · intro v
          obtain ⟨hle, hcnt⟩ := hcnts v
          have hOffe : evtOff ns.notes v e = false := by
            simp [evtOff, hk]
          have hOffp : offCount ns.notes v (p ++ [e]) = offCount ns.notes v p := by
            unfold offCount
            rw [List.countP_append, List.countP_singleton, hOffe]
            simp
          by_cases hv : noteGet ns.notes e.noteId = v
          · have hOne : evtOn ns.notes v e = true := by
              simp [evtOn, hk, hv]
            have hOnp : onCount ns.notes v (p ++ [e]) =
                onCount ns.notes v p + 1 := by
              unfold onCount
              rw [List.countP_append, List.countP_singleton, hOne]
              simp
            have hq : v.instrument = e.instrument := by
              rw [← hv, ← hinstr]
            have hcnt' : cntActive ns.notes
                (activeSet st.active e.instrument
                  (activeGet st.active e.instrument ++ [e.noteId])) v =
                cntActive ns.notes st.active v + 1 := by
              unfold cntActive
              rw [hq, activeGet_activeSet_self, List.countP_append,
                List.countP_singleton]
              simp [hv]
            rw [hOnp, hOffp]
            refine ⟨by omega, ?_⟩
            rw [hcnt', hcnt]
            omega
          · have hOne : evtOn ns.notes v e = false := by
              simp [evtOn, hv]
            have hOnp : onCount ns.notes v (p ++ [e]) = onCount ns.notes v p := by
              unfold onCount
              rw [List.countP_append, List.countP_singleton, hOne]
              simp
            have hcnt' : cntActive ns.notes
                (activeSet st.active e.instrument
                  (activeGet st.active e.instrument ++ [e.noteId])) v =
                cntActive ns.notes st.active v := by
              unfold cntActive
              by_cases hq : v.instrument = e.instrument
              · rw [hq, activeGet_activeSet_self, List.countP_append,
                  List.countP_singleton]
                simp [hv]
              · rw [activeGet_activeSet_ne _ hq]
            rw [hOnp, hOffp, hcnt']
            exact ⟨hle, hcnt⟩
      obtain ⟨st', hfold, hinv'⟩ := ih (p ++ [e]) _ hS' hInv2
      refine ⟨st', by rw [hred]; exact hfold, ?_⟩
      rwa [List.append_assoc, List.singleton_append] at hinv'
    · -- note-off event
      have hstep := sustainStep_off hk hsus
      rw [hnotes] at hstep
      have hred : (e :: s').foldlM sustainStep st =
          s'.foldlM sustainStep
            { notes := ns.notes, removed := st.removed
              active := activeSet st.active e.instrument
                (removeFirstEq ns.notes (activeGet st.active e.instrument)
                  (noteGet ns.notes e.noteId))
              sus := st.sus, total_time := st.total_time, time := e.time } := by
        rw [List.foldlM_cons, hstep]
        rfl
      have hS' : stableSort sustainEventLE (sustainEvents ns scn) =
          (p ++ [e]) ++ s' := by
        rw [hS, List.append_assoc, List.singleton_append]
      have hpairS := stableSort_pairwise sustainEventLE_total
        sustainEventLE_trans (sustainEvents ns scn)
      have hpair2 : (e :: s').Pairwise (fun a b => sustainEventLE a b = true) := by
        rw [hS] at hpairS
        exact (List.pairwise_append.mp hpairS).2.1
      have hrel : ∀ x ∈ s', sustainEventLE e x = true :=
        (List.pairwise_cons.mp hpair2).1
      have hOnS' : s'.countP (evtOn ns.notes (noteGet ns.notes e.noteId)) = 0 := by
        rw [List.countP_eq_zero]
        intro x hx
        intro hcon
        simp only [evtOn, Bool.and_eq_true, decide_eq_true_eq] at hcon
        obtain ⟨hxk, hxv⟩ := hcon
        have hxS : x ∈ stableSort sustainEventLE (sustainEvents ns scn) := by
          rw [hS]
          exact List.mem_append.mpr (Or.inr (List.mem_cons_of_mem _ hx))
        have hxgood := sustainEvents_good hcc x
          ((mem_stableSort sustainEventLE _ x).mp hxS)
        obtain ⟨hxlen, hxdrum, hxinstr, hxkind⟩ := hxgood
        rcases hxkind with ⟨_, hxt⟩ | ⟨hk3, _⟩
        · have h1 := hrel x hx
          simp only [sustainEventLE, Bool.or_eq_true, Bool.and_eq_true,
            decide_eq_true_eq] at h1
          have hstart_le := hse _ hvmem hdrum
          rcases h1 with h1 | ⟨_, h1k⟩
          · rw [htime, hxt, hxv] at h1
            exact absurd h1 (not_lt.mpr hstart_le)
          · rw [hk, hxk] at h1k
            omega
        · rw [hxk] at hk3
          exact absurd hk3 (by norm_num)
      have hperm := stableSort_perm sustainEventLE (sustainEvents ns scn)
      have hglobal :
          onCount ns.notes (noteGet ns.notes e.noteId) (p ++ e :: s') =
            offCount ns.notes (noteGet ns.notes e.noteId) (p ++ e :: s') := by
        rw [← hS]
        unfold onCount offCount
        rw [hperm.countP_eq, hperm.countP_eq]
        exact onCount_eq_offCount hcc (noteGet ns.notes e.noteId)
      have hOne0 : evtOn ns.notes (noteGet ns.notes e.noteId) e = false := by
        simp [evtOn, hk]
      have hOffe0 : evtOff ns.notes (noteGet ns.notes e.noteId) e = true := by
        simp [evtOff, hk]
      have harith : onCount ns.notes (noteGet ns.notes e.noteId) p =
          offCount ns.notes (noteGet ns.notes e.noteId) p + 1 +
            s'.countP (evtOff ns.notes (noteGet ns.notes e.noteId)) := by
        unfold onCount offCount at hglobal ⊢
        rw [List.countP_append, List.countP_append, List.countP_cons,
          List.countP_cons, hOne0, hOffe0, hOnS'] at hglobal
        simp at hglobal
        omega
      have hposcnt : 1 ≤ cntActive ns.notes st.active (noteGet ns.notes e.noteId) := by
        obtain ⟨hle0, hcnt0⟩ := hcnts (noteGet ns.notes e.noteId)
        omega
      have hq0 : (noteGet ns.notes e.noteId).instrument = e.instrument :=
        hinstr.symm
      have hInv2 : SustainInv ns (p ++ [e])
          { notes := ns.notes, removed := st.removed
            active := activeSet st.active e.instrument
              (removeFirstEq ns.notes (activeGet st.active e.instrument)
                (noteGet ns.notes e.noteId))
            sus := st.sus, total_time := st.total_time, time := e.time } := by
        refine ⟨rfl, hrem, htot, hsus, activeSet_keys_nodup _ _ hnd, ?_, ?_⟩
        · intro q i hi
          by_cases hq : q = e.instrument
          · rw [hq, activeGet_activeSet_self] at hi
            have hi2 := removeFirstEq_subset ns.notes _ _ i hi
            refine ⟨(hvalid _ i hi2).1, ?_⟩
            rw [hq]
            exact (hvalid _ i hi2).2
          · rw [activeGet_activeSet_ne _ hq] at hi
            exact hvalid q i hi
        · intro v
          obtain ⟨hle, hcnt⟩ := hcnts v
          have hOne : evtOn ns.notes v e = false := by
            simp [evtOn, hk]
          have hOnp : onCount ns.notes v (p ++ [e]) = onCount ns.notes v p := by
            unfold onCount
            rw [List.countP_append, List.countP_singleton, hOne]
            simp
          by_cases hv : noteGet ns.notes e.noteId = v
          · have hOffe : evtOff ns.notes v e = true := by
              simp [evtOff, hk, hv]
            have hOffp : offCount ns.notes v (p ++ [e]) =
                offCount ns.notes v p + 1 := by
              unfold offCount
              rw [List.countP_append, List.countP_singleton, hOffe]
              simp
            have hlep : offCount ns.notes v p + 1 ≤ onCount ns.notes v p := by
              rw [← hv] at hle hcnt ⊢
              omega
            have hcnt' : cntActive ns.notes
                (activeSet st.active e.instrument
                  (removeFirstEq ns.notes (activeGet st.active e.instrument)
                    (noteGet ns.notes e.noteId))) v =
                cntActive ns.notes st.active v - 1 := by
              unfold cntActive
              rw [← hv, hq0, activeGet_activeSet_self]
              apply removeFirstEq_countP_self
              have := hposcnt
              unfold cntActive at this
              rw [hq0] at this
              exact this
            rw [hOnp, hOffp, hcnt', hcnt]
            constructor
            · exact hlep
            · rw [← hv] at hle ⊢
              omega
          · have hOffe : evtOff ns.notes v e = false := by
              simp [evtOff, hv]
            have hOffp : offCount ns.notes v (p ++ [e]) =
                offCount ns.notes v p := by
              unfold offCount
              rw [List.countP_append, List.countP_singleton, hOffe]
              simp
            have hcnt' : cntActive ns.notes
                (activeSet st.active e.instrument
                  (removeFirstEq ns.notes (activeGet st.active e.instrument)
                    (noteGet ns.notes e.noteId))) v =
                cntActive ns.notes st.active v := by
              unfold cntActive
              by_cases hq : v.instrument = e.instrument
              · rw [hq, activeGet_activeSet_self]
                exact removeFirstEq_countP_ne ns.notes
                  (fun h => hv h.symm) _
              · rw [activeGet_activeSet_ne _ hq]
            rw [hOnp, hOffp, hcnt']
            exact ⟨hle, hcnt⟩
      obtain ⟨st', hfold, hinv'⟩ := ih (p ++ [e]) _ hS' hInv2
      refine ⟨st', by rw [hred]; exact hfold, ?_⟩
      rwa [List.append_assoc, List.singleton_append] at hinv'

end ResolvMir

namespace ResolvMir

theorem sustainActiveIds_nil {st : SustainState}
    (h : ∀ pr ∈ st.active, pr.2 = ([] : List ℕ)) : sustainActiveIds st = [] := by
  unfold sustainActiveIds
  suffices haux : ∀ (a : List (ℤ × List ℕ)) (acc : List ℕ),
      (∀ pr ∈ a, pr.2 = ([] : List ℕ)) →
      a.foldl (fun acc p => acc ++ p.2) acc = acc by
    exact haux _ [] h
  intro a
  induction a with
  | nil =>
    intro acc _
    rfl
  | cons pr rest ih =>
    intro acc hall
    rw [List.foldl_cons, hall pr (List.mem_cons_self _ _), List.append_nil]
    exact ih acc (fun x hx => hall x (List.mem_cons_of_mem _ hx))

/-- C9 (amended): on an unquantized sequence with no control change on the
sustain control number and all non-drum notes satisfying
`start_time <= end_time`, `apply_sustain_control_changes` is the identity
(drum notes generate no events, so they are unconstrained). -/
theorem apply_sustain_identity_without_sustain (ns : NoteSequence) (scn : ℤ)
    (hq : is_quantized_sequence ns = false)
    (hcc : ∀ cc ∈ ns.control_changes, cc.control_number ≠ scn)
    (hse : ∀ n ∈ ns.notes, n.is_drum = false → n.start_time ≤ n.end_time) :
    apply_sustain_control_changes ns scn = .ok ns := by
  have hInv0 : SustainInv ns []
      ({ notes := ns.notes, removed := [], active := [], sus := [],
         total_time := ns.total_time, time := 0 } : SustainState) := by
    refine ⟨rfl, rfl, rfl, rfl, by simp, ?_, ?_⟩
    · intro q i hi
      simp [activeGet, List.lookup] at hi
    · intro v
      simp [onCount, offCount, cntActive, activeGet, List.lookup]
  obtain ⟨st', hfold, hinv'⟩ := sustainWalk_inv ns scn hse hcc
    (stableSort sustainEventLE (sustainEvents ns scn)) [] _ rfl hInv0
  rw [List.nil_append] at hinv'
  obtain ⟨hnotes', hrem', htot', hsus', hnd', hvalid', hcnts'⟩ := hinv'
  have hwalk : sustainWalk ns scn = .ok st' := hfold
  have hempty : ∀ pr ∈ st'.active, pr.2 = ([] : List ℕ) := by
    intro pr hpr
    obtain ⟨k, l⟩ := pr
    cases l with
    | nil => rfl
    | cons i rest =>
      exfalso
      have hget : activeGet st'.active k = i :: rest :=
        activeGet_of_mem_nodup hnd' hpr
      have hin : i ∈ activeGet st'.active k := by
        rw [hget]
        exact List.mem_cons_self _ _
      obtain ⟨hilen, hiinstr⟩ := hvalid' k i hin
      have hperm := stableSort_perm sustainEventLE (sustainEvents ns scn)
      have hglobal : onCount ns.notes (noteGet ns.notes i)
          (stableSort sustainEventLE (sustainEvents ns scn)) =
          offCount ns.notes (noteGet ns.notes i)
            (stableSort sustainEventLE (sustainEvents ns scn)) := by
        unfold onCount offCount
        rw [hperm.countP_eq, hperm.countP_eq]
        exact onCount_eq_offCount hcc (noteGet ns.notes i)
      have hc := (hcnts' (noteGet ns.notes i)).2
      have hzero : cntActive ns.notes st'.active (noteGet ns.notes i) = 0 := by
        omega
      have hpos : 0 < cntActive ns.notes st'.active (noteGet ns.notes i) := by
        unfold cntActive
        rw [hiinstr, hget]
        rw [List.countP_pos_iff]
        exact ⟨i, List.mem_cons_self _ _, by simp⟩
      omega
  have hids : sustainActiveIds st' = [] := sustainActiveIds_nil hempty
  have hfin : finalizeSustain ns st' = ns := by
    unfold finalizeSustain
    rw [hids]
    simp only [List.foldl_nil, List.isEmpty_nil, if_pos]
    rw [hrem', hnotes', htot']
    have hfun : (fun p : ℕ × Note => !List.contains ([] : List ℕ) p.1) =
        fun _ => true := by
      funext p
      simp
    rw [hfun, List.filter_true, List.enum_map_snd]
  unfold apply_sustain_control_changes
  rw [hq, hwalk]
  show Except.ok (finalizeSustain ns st') = Except.ok ns
  rw [hfin]

end ResolvMir

namespace ResolvMir

/-- An unquantized sequence with duplicate equal notes, an overlapping
third note, an *inverted* drum note (end before start; drums generate no
events so identity still holds), and no control changes — used to witness
C9's amended identity theorem. -/
def c9good : NoteSequence :=
  { emptySeq with
    total_time := 4
    notes := [mkNote 60 0 2 0 0, mkNote 60 0 2 0 0, mkNote 64 1 3 0 0,
              { mkNote 35 3 1 0 0 with is_drum := true }] }

/-- Witness for C9's amended theorem: sustain resolution leaves `c9good`
exactly unchanged. -/
theorem apply_sustain_identity_without_sustain_witness :
    apply_sustain_control_changes c9good 64 = .ok c9good :=
  apply_sustain_identity_without_sustain c9good 64 (by decide) (by decide)
    (by decide)

end ResolvMir
